import Mathlib

/-!
# Verification of the NiceVibrations haptics core

A shallow embedding, over exact rationals `ℚ`, of the clip data model and the
transformation pipeline of the NiceVibrations repository:

* `core/utils/src/lib.rs` — linear interpolation helper;
* `core/datamodel/src/v1.rs` — the v1 clip model, `truncate_before`, validation;
* `core/datamodel/src/v0.rs` — the legacy v0 model and its validation;
* `core/datamodel/src/lib.rs` — version dispatch (`from_json`, `upgrade_to_latest`);
* `core/datamodel/src/waveform.rs` — breakpoint-to-waveform conversion;
* `core/datamodel/src/interpolation.rs` — interpolation / quantization pass;
* `core/datamodel/src/emphasis.rs` — emphasis rendering;
* `clip-players/src/haptic_event_provider.rs` — the lazy event provider;
* `clip-players/src/android.rs` — the waveform backend's command handling.

`f32` values are modelled as exact rationals; the explicit float operations of
the source (`round`, casts, `f32::EPSILON` comparisons) are modelled by the
corresponding exact operations on `ℚ`.  Where NaN semantics matter (the v1
validator), a separate model over `Option ℚ` is used, `none` playing the role
of NaN, with the IEEE rule that every ordered comparison involving NaN is
false.
-/

namespace NiceVibrations

/-- `f32::EPSILON` (= 2⁻²³), used verbatim by several source functions. -/
def eps32 : ℚ := 1 / 2 ^ 23

/-- Rust's `f32::round`: round half away from zero. -/
def rust_round (q : ℚ) : ℤ :=
  if 0 ≤ q then ⌊q + 1 / 2⌋ else ⌈q - 1 / 2⌉

/-- Rust's `as i32` / `as i64` cast from `f32`: truncation toward zero. -/
def f32_as_int (q : ℚ) : ℤ :=
  if 0 ≤ q then ⌊q⌋ else ⌈q⌉

/-- Rust's `as usize` cast from `f32`: truncation toward zero, saturating at 0. -/
def f32_as_usize (q : ℚ) : ℕ :=
  if 0 ≤ q then (⌊q⌋).toNat else 0

/-- `utils::interpolate` (core/utils/src/lib.rs): value linearly interpolated
between `value_a` and `value_b`, with the weight given by the position of
`time` in `[time_a, time_b]`.  If the interval is degenerate, `value_b` is
returned. -/
def interpolate (time_a time_b value_a value_b time : ℚ) : ℚ :=
  let time_diff := time_b - time_a
  if time_diff = 0 then value_b
  else
    let value_diff := value_b - value_a
    let factor := (time - time_a) / time_diff
    value_a + value_diff * factor

/-! ## The v1 data model (core/datamodel/src/v1.rs) -/

/-- `v1::Emphasis`. -/
structure Emphasis where
  amplitude : ℚ
  frequency : ℚ
deriving DecidableEq, Repr

/-- `v1::AmplitudeBreakpoint`. -/
structure AmplitudeBreakpoint where
  time : ℚ
  amplitude : ℚ
  emphasis : Option Emphasis
deriving DecidableEq, Repr

instance : Inhabited AmplitudeBreakpoint := ⟨⟨0, 0, none⟩⟩

/-- `v1::FrequencyBreakpoint`. -/
structure FrequencyBreakpoint where
  time : ℚ
  frequency : ℚ
deriving DecidableEq, Repr

instance : Inhabited FrequencyBreakpoint := ⟨⟨0, 0⟩⟩

/-- `AmplitudeBreakpoint::from_interpolated_breakpoints`. -/
def AmplitudeBreakpoint.from_interpolated_breakpoints
    (breakpoint_a breakpoint_b : AmplitudeBreakpoint) (time : ℚ) :
    AmplitudeBreakpoint :=
  { time := time
    amplitude := interpolate breakpoint_a.time breakpoint_b.time
      breakpoint_a.amplitude breakpoint_b.amplitude time
    emphasis := none }

/-- `FrequencyBreakpoint::from_interpolated_breakpoints`. -/
def FrequencyBreakpoint.from_interpolated_breakpoints
    (breakpoint_a breakpoint_b : FrequencyBreakpoint) (time : ℚ) :
    FrequencyBreakpoint :=
  { time := time
    frequency := interpolate breakpoint_a.time breakpoint_b.time
      breakpoint_a.frequency breakpoint_b.frequency time }

/-- `version::Version` (major/minor/patch, `u32` fields). -/
structure Version where
  major : ℕ
  minor : ℕ
  patch : ℕ
deriving DecidableEq, Repr

/-- `v1::MetaData` (strings only; no claim depends on it). -/
structure MetaData where
  editor : String
  author : String
  source : String
  project : String
  tags : List String
  description : String
deriving DecidableEq, Repr

/-- `v1::Envelopes`. -/
structure Envelopes where
  amplitude : List AmplitudeBreakpoint
  frequency : Option (List FrequencyBreakpoint)
deriving DecidableEq, Repr

/-- `v1::SignalContinuous`. -/
structure SignalContinuous where
  envelopes : Envelopes
deriving DecidableEq, Repr

/-- `v1::Signals`. -/
structure Signals where
  continuous : SignalContinuous
deriving DecidableEq, Repr

/-- `v1::DataModel`. -/
structure DataModel where
  version : Version
  metadata : MetaData
  signals : Signals
deriving DecidableEq, Repr

/-- Shorthand used below: the amplitude envelope of a clip. -/
def DataModel.amplitudes (m : DataModel) : List AmplitudeBreakpoint :=
  m.signals.continuous.envelopes.amplitude

/-- Shorthand used below: the frequency envelope of a clip. -/
def DataModel.frequencies (m : DataModel) : Option (List FrequencyBreakpoint) :=
  m.signals.continuous.envelopes.frequency

/-- The amplitude-envelope half of `DataModel::truncate_before`
(core/datamodel/src/v1.rs, lines 160–206): find the first breakpoint with
`time ≥ t`; if there is none the operation fails; if it is not the very first
breakpoint, remove the earlier breakpoints, shift every remaining time by
`-t`, and — whenever the two neighbours of the cut are more than
`f32::EPSILON` apart — insert a new first breakpoint at time 0 with the
amplitude interpolated at `t`. -/
def truncate_amplitude (amplitudes : List AmplitudeBreakpoint) (time : ℚ) :
    Option (List AmplitudeBreakpoint) :=
  match amplitudes.findIdx? (fun breakpoint => time ≤ breakpoint.time) with
  | none => none
  | some index =>
    if index > 0 then
      -- the `findIdx?` result is in range, so `getD` never takes its default
      let breakpoint_before := amplitudes.getD (index - 1) default
      let breakpoint_after := amplitudes.getD index default
      let new_first_breakpoint :=
        if eps32 < breakpoint_after.time - breakpoint_before.time then
          some (AmplitudeBreakpoint.mk 0
            (interpolate breakpoint_before.time breakpoint_after.time
              breakpoint_before.amplitude breakpoint_after.amplitude time)
            none)
        else none
      let retained := (amplitudes.filter (fun breakpoint => time ≤ breakpoint.time)).map
        (fun breakpoint => { breakpoint with time := breakpoint.time - time })
      match new_first_breakpoint with
      | some nf => some (nf :: retained)
      | none => some retained
    else some amplitudes

/-- The frequency-envelope half of `DataModel::truncate_before`
(core/datamodel/src/v1.rs, lines 212–248).  Returns the new optional
frequency envelope; if no breakpoint lies at or after `t` the envelope is
dropped. -/
def truncate_frequency (frequencies : List FrequencyBreakpoint) (time : ℚ) :
    Option (List FrequencyBreakpoint) :=
  match frequencies.findIdx? (fun breakpoint => time ≤ breakpoint.time) with
  | none => none
  | some index =>
    if index > 0 then
      let breakpoint_before := frequencies.getD (index - 1) default
      let breakpoint_after := frequencies.getD index default
      let new_first_breakpoint :=
        if eps32 < breakpoint_after.time - breakpoint_before.time then
          some (FrequencyBreakpoint.mk 0
            (interpolate breakpoint_before.time breakpoint_after.time
              breakpoint_before.frequency breakpoint_after.frequency time))
        else none
      let retained := (frequencies.filter (fun breakpoint => time ≤ breakpoint.time)).map
        (fun breakpoint => { breakpoint with time := breakpoint.time - time })
      match new_first_breakpoint with
      | some nf => some (nf :: retained)
      | none => some retained
    else some frequencies

/-- `DataModel::truncate_before` (core/datamodel/src/v1.rs).  The Rust method
mutates `self` and returns `Result<(), String>`; here it is modelled as a
function returning the updated model. -/
def DataModel.truncate_before (m : DataModel) (time : ℚ) :
    Except String DataModel :=
  match truncate_amplitude m.amplitudes time with
  | none => .error "No amplitude breakpoint before the specified starting time"
  | some new_amplitudes =>
    let new_frequencies :=
      match m.frequencies with
      | none => none
      | some frequencies => truncate_frequency frequencies time
    .ok { m with
          signals := { continuous := { envelopes :=
            { amplitude := new_amplitudes, frequency := new_frequencies } } } }

/-! ## The waveform builder (core/datamodel/src/waveform.rs) -/

/-- `waveform::Waveform`: parallel lists of cell durations (ms) and integer
amplitudes. -/
structure Waveform where
  timings : List ℤ
  amplitudes : List ℤ
deriving DecidableEq, Repr

/-- One iteration of the loop in `Waveform::from_breakpoints`
(core/datamodel/src/waveform.rs, lines 36–64): given the accumulated emitted
milliseconds and a pair of consecutive breakpoints, produce the emitted cell
(if any) and the new accumulator. -/
def waveform_step (max_amplitude : ℤ) (accumulated_duration : ℚ)
    (breakpoint_a breakpoint_b : AmplitudeBreakpoint) :
    Option (ℤ × ℤ) × ℚ :=
  let duration := breakpoint_b.time - breakpoint_a.time
  if 0 < duration then
    let timing_error_ms := (breakpoint_a.time - accumulated_duration / 1000) * 1000
    let duration_ms := rust_round (duration * 1000 + timing_error_ms)
    if 0 < duration_ms then
      let amplitude := f32_as_int (breakpoint_a.amplitude * (max_amplitude : ℚ))
      (some (duration_ms, amplitude), accumulated_duration + (duration_ms : ℚ))
    else (none, accumulated_duration)
  else (none, accumulated_duration)

/-- The loop of `Waveform::from_breakpoints` over consecutive breakpoint
pairs (`breakpoints.windows(2)` in the source). -/
def from_breakpoints_go (max_amplitude : ℤ) :
    ℚ → List AmplitudeBreakpoint → List (ℤ × ℤ)
  | _, [] => []
  | _, [_] => []
  | accumulated, a :: b :: rest =>
    match waveform_step max_amplitude accumulated a b with
    | (some cell, accumulated') =>
        cell :: from_breakpoints_go max_amplitude accumulated' (b :: rest)
    | (none, accumulated') => from_breakpoints_go max_amplitude accumulated' (b :: rest)

/-- `Waveform::from_breakpoints` (core/datamodel/src/waveform.rs). -/
def Waveform.from_breakpoints (breakpoints : List AmplitudeBreakpoint)
    (max_amplitude : ℤ) : Waveform :=
  let cells := from_breakpoints_go max_amplitude 0 breakpoints
  { timings := cells.map Prod.fst, amplitudes := cells.map Prod.snd }

/-! ## The interpolator (core/datamodel/src/interpolation.rs) -/

/-- `interpolation::InterpolationParameters`. -/
structure InterpolationParameters where
  q_depth : ℕ
  min_time_step : ℚ
  sampling_freq : ℚ
deriving DecidableEq, Repr

/-- `InterpolationParameters::new`. -/
def InterpolationParameters.new (q_bits : ℕ) (min_time_step : ℚ) :
    InterpolationParameters :=
  let q_depth := 2 ^ q_bits
  if 0 < min_time_step then
    { q_depth := q_depth, min_time_step := min_time_step,
      sampling_freq := 1 / min_time_step }
  else
    { q_depth := q_depth, min_time_step := 0, sampling_freq := 0 }

/-- The local `clamp` of interpolation.rs: `number.min(max).max(min)`. -/
def clamp (number mn mx : ℚ) : ℚ :=
  max (min number mx) mn

/-- `itertools_num::linspace(a, b, n)`: `n` points spaced by `(b-a)/(n-1)`.
Only evaluated with `n ≥ 3` by the source. -/
def linspace (a b : ℚ) (n : ℕ) : List ℚ :=
  (List.range n).map (fun i : ℕ => a + (b - a) / ((n : ℚ) - 1) * (i : ℚ))

/-- `Interpolator::linear_space_interpolation`
(core/datamodel/src/interpolation.rs, lines 96–139). -/
def linear_space_interpolation (p : InterpolationParameters)
    (time_a time_b amp_a amp_b : ℚ) : List ℚ × List ℚ :=
  let interval := time_b - time_a
  let total_points := f32_as_usize (p.sampling_freq * interval + 1)
  if p.min_time_step < interval ∧ 3 ≤ total_points then
    let interp_time := linspace time_a time_b total_points
    (interp_time,
      interp_time.map (fun x =>
        interpolate time_a time_b amp_a amp_b (clamp x time_a time_b)))
  else
    ([time_a, time_b], [amp_a, amp_b])

/-- The loop of `Interpolator::remove_redundant_amplitudes`, carrying the
current quantization bin. -/
def remove_redundant_go (q_depth : ℕ) (time_first time_last : ℚ) :
    List ℚ → List ℚ → ℚ → List AmplitudeBreakpoint
  | time :: times, amp :: amps, current_bin =>
    let amp_quantized := (rust_round (amp * (q_depth : ℚ)) : ℚ) / (q_depth : ℚ)
    if |amp_quantized - current_bin| < eps32 ∧
        (eps32 < |time - time_first| ∧ eps32 < |time - time_last|) then
      remove_redundant_go q_depth time_first time_last times amps current_bin
    else
      ⟨time, amp, none⟩ ::
        remove_redundant_go q_depth time_first time_last times amps amp_quantized
  | _, _, _ => []

/-- `Interpolator::remove_redundant_amplitudes`
(core/datamodel/src/interpolation.rs, lines 158–202). -/
def remove_redundant_amplitudes (p : InterpolationParameters)
    (interp_time interp_amp : List ℚ) : List AmplitudeBreakpoint :=
  remove_redundant_go p.q_depth (interp_time.headD 0) (interp_time.getLastD 0)
    interp_time interp_amp 0

/-- The loop of `Interpolator::process`: iterate over breakpoints, keeping the
previous one. -/
def process_go (p : InterpolationParameters) :
    AmplitudeBreakpoint → List AmplitudeBreakpoint → List AmplitudeBreakpoint
  | _, [] => []
  | previous, breakpoint :: rest =>
    let segment := linear_space_interpolation p previous.time breakpoint.time
      previous.amplitude breakpoint.amplitude
    remove_redundant_amplitudes p segment.1 segment.2 ++ process_go p breakpoint rest

/-- `Interpolator::process` (core/datamodel/src/interpolation.rs, lines
60–91).  The first breakpoint only sets `previous_breakpoint`; every later
breakpoint contributes one interpolated segment. -/
def Interpolator.process (p : InterpolationParameters)
    (amplitude_breakpoints : List AmplitudeBreakpoint) :
    List AmplitudeBreakpoint :=
  match amplitude_breakpoints with
  | [] => []
  | breakpoint :: rest => process_go p breakpoint rest

/-! ## The emphasis renderer (core/datamodel/src/emphasis.rs) -/

/-- `emphasis::EmphasisParameters`.  The three lengths are `std::time::Duration`
values in the source (hence nonnegative); they are carried here as rationals in
seconds. -/
structure EmphasisParameters where
  ducking_before_length : ℚ
  ducking_after_length : ℚ
  emphasis_length : ℚ
  ducking_amplitude : ℚ
deriving DecidableEq, Repr

/-- `EmphasisParameters::default()`: 30 ms lengths, ducking amplitude 0. -/
def EmphasisParameters.default : EmphasisParameters :=
  { ducking_before_length := 3 / 100
    ducking_after_length := 3 / 100
    emphasis_length := 3 / 100
    ducking_amplitude := 0 }

/-- `EMPHASIS_AMPLITUDE` (emphasis.rs): the fixed amplitude of the rendered
emphasis burst. -/
def EMPHASIS_AMPLITUDE : ℚ := 1

/-- The `last_time` computation appearing twice in emphasis.rs: the time of
the last breakpoint pushed so far, or `0.0` for an empty result. -/
def last_time (result : List AmplitudeBreakpoint) : ℚ :=
  match result.getLast? with
  | some last => last.time
  | none => 0

/-- `Iterator::rposition`: index of the last element satisfying the
predicate. -/
def rposition (p : α → Bool) : List α → Option ℕ
  | [] => none
  | x :: xs =>
    match rposition p xs with
    | some j => some (j + 1)
    | none => if p x then some 0 else none

/-- `Emphasizer::process_ducking_before_area` (emphasis.rs, lines 170–224). -/
def process_ducking_before_area (orig : List AmplitudeBreakpoint)
    (params : EmphasisParameters) (emphasis_breakpoint : AmplitudeBreakpoint)
    (emphasis_index : ℕ) (result : List AmplitudeBreakpoint) :
    List AmplitudeBreakpoint :=
  let lt := last_time result
  if emphasis_breakpoint.time ≤ lt then result
  else
    let ducking_before_start :=
      max (max (emphasis_breakpoint.time - params.ducking_before_length) 0) lt
    let result :=
      match rposition (fun breakpoint => decide (breakpoint.time < ducking_before_start))
          (orig.take emphasis_index) with
      | some index_before =>
        -- Breakpoint 1: interpolated start of the ducking-before area.
        -- `rposition` over `take emphasis_index` yields an index `< emphasis_index
        -- ≤ orig.length`, so both `getD` calls stay in range.
        let breakpoint_before := orig.getD index_before default
        let breakpoint_in := orig.getD (index_before + 1) default
        result ++ [AmplitudeBreakpoint.from_interpolated_breakpoints
          breakpoint_before breakpoint_in ducking_before_start]
      | none => result
    -- Breakpoints 2 and 3: start and end of ducking before, at ducking amplitude.
    result ++ [⟨ducking_before_start, params.ducking_amplitude, none⟩,
      ⟨emphasis_breakpoint.time, params.ducking_amplitude, none⟩]

/-- `Emphasizer::process_emphasis_and_ducking_after_area` (emphasis.rs, lines
236–324). -/
def process_emphasis_and_ducking_after_area (orig : List AmplitudeBreakpoint)
    (params : EmphasisParameters) (emphasis_breakpoint : AmplitudeBreakpoint)
    (emphasis_index : ℕ) (result : List AmplitudeBreakpoint) :
    List AmplitudeBreakpoint :=
  let lt := last_time result
  let emphasis_start := max emphasis_breakpoint.time lt
  let emphasis_end := max (emphasis_breakpoint.time + params.emphasis_length) lt
  -- A zero-length emphasis (fully inside the previous ducking-after range)
  -- is skipped entirely.
  if emphasis_end - emphasis_start ≤ eps32 then result
  else
    -- Breakpoints 1 and 2: start and end of the emphasis, at amplitude 1.0.
    let result := result ++ [⟨emphasis_start, EMPHASIS_AMPLITUDE, none⟩,
      ⟨emphasis_end, EMPHASIS_AMPLITUDE, none⟩]
    if emphasis_index = orig.length - 1 then result
    else
      -- Breakpoints 3 and 4: start and end of ducking after.
      let ducking_after_start := emphasis_end
      let ducking_after_end := ducking_after_start + params.ducking_after_length
      let result := result ++ [⟨ducking_after_start, params.ducking_amplitude, none⟩,
        ⟨ducking_after_end, params.ducking_amplitude, none⟩]
      -- Breakpoint 5: interpolated end of the ducking-after area.
      if emphasis_index < orig.length - 1 then
        let start_index := emphasis_index + 1
        match ((orig.drop start_index).findIdx?
            (fun breakpoint => decide (ducking_after_end < breakpoint.time))).map
            (· + start_index) with
        | some index_after =>
          let breakpoint_after := orig.getD index_after default
          let breakpoint_in := orig.getD (index_after - 1) default
          result ++ [AmplitudeBreakpoint.from_interpolated_breakpoints
            breakpoint_in breakpoint_after ducking_after_end]
        | none => result
      else result

/-- `Emphasizer::process_normal_breakpoint` (emphasis.rs, lines 118–149):
append the breakpoint unless it falls into the ducking-before range of the
next emphasis or the emphasis/ducking-after range of the previous one. -/
def process_normal_breakpoint (params : EmphasisParameters)
    (breakpoint : AmplitudeBreakpoint)
    (prev_emphasis next_emphasis : Option AmplitudeBreakpoint)
    (result : List AmplitudeBreakpoint) : List AmplitudeBreakpoint :=
  let skip_due_to_ducking_before :=
    match next_emphasis with
    | none => false
    | some next_emphasis =>
      let ducking_before_start :=
        max (next_emphasis.time - params.ducking_before_length) 0
      decide (ducking_before_start ≤ breakpoint.time ∧
        breakpoint.time ≤ next_emphasis.time)
  let skip_due_to_emphasis_and_ducking_after :=
    match prev_emphasis with
    | none => false
    | some prev_emphasis =>
      let emphasis_end := prev_emphasis.time + params.emphasis_length
      let ducking_after_end := emphasis_end + params.ducking_after_length
      decide (prev_emphasis.time ≤ breakpoint.time ∧
        breakpoint.time ≤ ducking_after_end)
  if skip_due_to_ducking_before || skip_due_to_emphasis_and_ducking_after then
    result
  else result ++ [breakpoint]

/-- The first breakpoint with emphasis at index `≥ j` (the
`find(...emphasis.is_some())` searches of `Emphasizer::process`). -/
def find_emphasis_from (orig : List AmplitudeBreakpoint) (j : ℕ) :
    Option AmplitudeBreakpoint :=
  (orig.drop j).find? (fun breakpoint => breakpoint.emphasis.isSome)

/-- The loop of `Emphasizer::process` (emphasis.rs, lines 92–112): iterate
over all breakpoints with their index, tracking the previous and next
emphasis breakpoints. -/
def emphasizer_loop (orig : List AmplitudeBreakpoint)
    (params : EmphasisParameters) :
    ℕ → List AmplitudeBreakpoint → Option AmplitudeBreakpoint →
    Option AmplitudeBreakpoint → List AmplitudeBreakpoint →
    List AmplitudeBreakpoint
  | _, [], _, _, result => result
  | index, breakpoint :: rest, prev_emphasis, next_emphasis, result =>
    match breakpoint.emphasis with
    | none =>
      emphasizer_loop orig params (index + 1) rest prev_emphasis next_emphasis
        (process_normal_breakpoint params breakpoint prev_emphasis next_emphasis result)
    | some _ =>
      let result := process_ducking_before_area orig params breakpoint index result
      let result :=
        process_emphasis_and_ducking_after_area orig params breakpoint index result
      emphasizer_loop orig params (index + 1) rest next_emphasis
        (find_emphasis_from orig (index + 1)) result

/-- `emphasis::emphasize` (emphasis.rs): render all emphasis bursts into the
continuous amplitude envelope. -/
def emphasize (amplitude_breakpoints : List AmplitudeBreakpoint)
    (params : EmphasisParameters) : List AmplitudeBreakpoint :=
  emphasizer_loop amplitude_breakpoints params 0 amplitude_breakpoints none
    (find_emphasis_from amplitude_breakpoints 0) []

/-! ## Validation (core/datamodel/src/v1.rs, lines 259–342)

The validator is translated twice: once over exact rationals (used by the
loader model — JSON cannot encode NaN, so loaded clips never contain one),
and once over `Option ℚ` where `none` models NaN and every ordered comparison
involving NaN is false, exactly as for `f32`. -/

/-- The amplitude loop of `Validation for DataModel::validate`.  Returns the
first error, if any.  Error messages keep the source's prefixes; the formatted
numeric arguments are omitted. -/
def v1_validate_amplitude_loop (lastTime : ℚ) :
    List AmplitudeBreakpoint → Option String
  | [] => none
  | breakpoint :: rest =>
    if breakpoint.amplitude < 0 ∨ breakpoint.amplitude > 1 then
      some "V1 Validation Error: Breakpoint amplitude out of range"
    else if lastTime > breakpoint.time then
      some "V1 Validation Error: Breakpoint times not consecutive"
    else
      match breakpoint.emphasis with
      | some emphasis =>
        if emphasis.amplitude > 1 ∨ emphasis.amplitude < 0 then
          some "V1 Validation Error: Emphasis amplitude out of range"
        else if emphasis.frequency > 1 ∨ emphasis.frequency < 0 then
          some "V1 Validation Error: Emphasis frequency out of range"
        else if emphasis.amplitude < breakpoint.amplitude then
          some "V1 Validation: Emphasis amplitude can't be lower than Envelope amplitude"
        else v1_validate_amplitude_loop breakpoint.time rest
      | none => v1_validate_amplitude_loop breakpoint.time rest

/-- The frequency loop of v1 `validate`. -/
def v1_validate_frequency_loop (lastTime : ℚ) :
    List FrequencyBreakpoint → Option String
  | [] => none
  | breakpoint :: rest =>
    if breakpoint.frequency < 0 ∨ breakpoint.frequency > 1 then
      some "V1 Validation Error: Breakpoint frequency out of range"
    else if lastTime > breakpoint.time then
      some "V1 Validation Error: Breakpoint frequency times not consecutive"
    else v1_validate_frequency_loop breakpoint.time rest

/-- `Validation for v1::DataModel` (`validate`): reject empty amplitude
envelopes, out-of-range values, decreasing times and emphasis below the
envelope. -/
def DataModel.validate (m : DataModel) : Except String DataModel :=
  if m.amplitudes.isEmpty then
    .error "V1 Validation Error: Amplitude envelope is empty"
  else
    match v1_validate_amplitude_loop 0 m.amplitudes with
    | some e => .error e
    | none =>
      match m.frequencies with
      | some frequency_envelopes =>
        match v1_validate_frequency_loop 0 frequency_envelopes with
        | some e => .error e
        | none => .ok m
      | none => .ok m

/-- An `f32` value including NaN: `none` is NaN. -/
def F32 := Option ℚ
deriving DecidableEq, Repr

/-- A non-NaN `f32` literal. -/
def F32.val (q : ℚ) : F32 := some q

/-- `<` on `f32`: false whenever either operand is NaN. -/
def f32_lt : F32 → F32 → Bool
  | some a, some b => decide (a < b)
  | _, _ => false

/-- `>` on `f32`: false whenever either operand is NaN. -/
def f32_gt (a b : F32) : Bool := f32_lt b a

/-- `v1::Emphasis` with NaN-aware fields. -/
structure EmphasisF where
  amplitude : F32
  frequency : F32
deriving DecidableEq, Repr

/-- `v1::AmplitudeBreakpoint` with NaN-aware fields. -/
structure AmplitudeBreakpointF where
  time : F32
  amplitude : F32
  emphasis : Option EmphasisF
deriving DecidableEq, Repr

/-- `v1::FrequencyBreakpoint` with NaN-aware fields. -/
structure FrequencyBreakpointF where
  time : F32
  frequency : F32
deriving DecidableEq, Repr

/-- The amplitude loop of v1 `validate`, with `f32` NaN semantics: each
comparison is false when an operand is NaN. -/
def v1_validate_amplitude_loop_f (lastTime : F32) :
    List AmplitudeBreakpointF → Option String
  | [] => none
  | breakpoint :: rest =>
    if f32_lt breakpoint.amplitude (F32.val 0) ||
        f32_gt breakpoint.amplitude (F32.val 1) then
      some "V1 Validation Error: Breakpoint amplitude out of range"
    else if f32_gt lastTime breakpoint.time then
      some "V1 Validation Error: Breakpoint times not consecutive"
    else
      match breakpoint.emphasis with
      | some emphasis =>
        if f32_gt emphasis.amplitude (F32.val 1) ||
            f32_lt emphasis.amplitude (F32.val 0) then
          some "V1 Validation Error: Emphasis amplitude out of range"
        else if f32_gt emphasis.frequency (F32.val 1) ||
            f32_lt emphasis.frequency (F32.val 0) then
          some "V1 Validation Error: Emphasis frequency out of range"
        else if f32_lt emphasis.amplitude breakpoint.amplitude then
          some "V1 Validation: Emphasis amplitude can't be lower than Envelope amplitude"
        else v1_validate_amplitude_loop_f breakpoint.time rest
      | none => v1_validate_amplitude_loop_f breakpoint.time rest

/-- The frequency loop of v1 `validate`, with `f32` NaN semantics. -/
def v1_validate_frequency_loop_f (lastTime : F32) :
    List FrequencyBreakpointF → Option String
  | [] => none
  | breakpoint :: rest =>
    if f32_lt breakpoint.frequency (F32.val 0) ||
        f32_gt breakpoint.frequency (F32.val 1) then
      some "V1 Validation Error: Breakpoint frequency out of range"
    else if f32_gt lastTime breakpoint.time then
      some "V1 Validation Error: Breakpoint frequency times not consecutive"
    else v1_validate_frequency_loop_f breakpoint.time rest

/-- v1 `validate` with `f32` NaN semantics, over the clip's two envelopes. -/
def validate_f (amplitude : List AmplitudeBreakpointF)
    (frequency : Option (List FrequencyBreakpointF)) : Except String Unit :=
  if amplitude.isEmpty then
    .error "V1 Validation Error: Amplitude envelope is empty"
  else
    match v1_validate_amplitude_loop_f (F32.val 0) amplitude with
    | some e => .error e
    | none =>
      match frequency with
      | some frequency_envelopes =>
        match v1_validate_frequency_loop_f (F32.val 0) frequency_envelopes with
        | some e => .error e
        | none => .ok ()
      | none => .ok ()

/-! ## `slice::binary_search_by`

The event provider and the v0 upgrade use Rust's `binary_search_by`.  The
repository pins a pre-1.50 toolchain (see the comment in interpolation.rs),
whose slice search keeps a `base`/`size` window and shrinks it by half until
one element is left.  `inl` is `Ok`, `inr` is `Err`. -/

/-- The `while size > 1` loop of `slice::binary_search_by`. -/
def binary_search_go [Inhabited α] (f : α → Ordering) (xs : List α) :
    ℕ → ℕ → ℕ ⊕ ℕ
  | base, size =>
    if h : 1 < size then
      let half := size / 2
      let mid := base + half
      let cmp := f (xs.getD mid default)
      binary_search_go f xs (if cmp = .gt then base else mid) (size - half)
    else
      let cmp := f (xs.getD base default)
      if cmp = .eq then .inl base
      else .inr (base + if cmp = .lt then 1 else 0)
termination_by _ size => size
decreasing_by simp_wf; omega

/-- `slice::binary_search_by`. -/
def binary_search_by [Inhabited α] (xs : List α) (f : α → Ordering) : ℕ ⊕ ℕ :=
  if xs.length = 0 then .inr 0
  else binary_search_go f xs 0 xs.length

/-! ## The event provider (clip-players/src/haptic_event_provider.rs) -/

/-- `MIN_BREAKPOINT_DISTANCE` (haptic_event_provider.rs). -/
def MIN_BREAKPOINT_DISTANCE : ℚ := 1 / 10000

/-- `AmplitudeEvent`.  The Rust struct stores "no emphasis" as NaN fields
(`repr(C)` cannot hold an `Option`); the semantic content is an optional
emphasis, modelled as such. -/
structure AmplitudeEvent where
  time : ℚ
  duration : ℚ
  amplitude : ℚ
  emphasis : Option Emphasis
deriving DecidableEq, Repr

/-- `FrequencyEvent`. -/
structure FrequencyEvent where
  time : ℚ
  duration : ℚ
  frequency : ℚ
deriving DecidableEq, Repr

/-- `haptic_event_provider::Event`. -/
inductive Event where
  | amplitude (event : AmplitudeEvent)
  | frequency (event : FrequencyEvent)
deriving DecidableEq, Repr

/-- `Event::time`. -/
def Event.time : Event → ℚ
  | .amplitude event => event.time
  | .frequency event => event.time

/-- `AmplitudeEvent::apply_amplitude_multiplication`: multiply once and clamp
below at 0, multiply again and clamp above at 1; same for a present emphasis
amplitude. -/
def AmplitudeEvent.apply_amplitude_multiplication (e : AmplitudeEvent)
    (multiplication_factor : ℚ) : AmplitudeEvent :=
  let amplitude := max (e.amplitude * multiplication_factor) 0
  let amplitude := min (amplitude * multiplication_factor) 1
  let emphasis :=
    match e.emphasis with
    | none => none
    | some emphasis =>
      let a := max (emphasis.amplitude * multiplication_factor) 0
      some { emphasis with amplitude := min (a * multiplication_factor) 1 }
  { e with amplitude := amplitude, emphasis := emphasis }

/-- `AmplitudeEvent::apply_frequency_shift`. -/
def AmplitudeEvent.apply_frequency_shift (e : AmplitudeEvent) (shift : ℚ) :
    AmplitudeEvent :=
  match e.emphasis with
  | none => e
  | some emphasis =>
    let new_emphasis : Emphasis :=
      { emphasis with frequency := max (min (emphasis.frequency + shift) 1) 0 }
    { e with emphasis := some new_emphasis }

/-- `FrequencyEvent::apply_frequency_shift`. -/
def FrequencyEvent.apply_frequency_shift (e : FrequencyEvent) (shift : ℚ) :
    FrequencyEvent :=
  { e with frequency := max (min (e.frequency + shift) 1) 0 }

/-- `Event::from_amplitude_breakpoints`: the ramp from `current` to `next`. -/
def Event.from_amplitude_breakpoints (current next : AmplitudeBreakpoint) :
    Event :=
  .amplitude
    { time := current.time
      duration := next.time - current.time
      amplitude := next.amplitude
      emphasis := current.emphasis }

/-- `Event::from_frequency_breakpoints`. -/
def Event.from_frequency_breakpoints (current next : FrequencyBreakpoint) :
    Event :=
  .frequency
    { time := current.time
      duration := next.time - current.time
      frequency := next.frequency }

/-- `Event::apply_amplitude_multiplication`. -/
def Event.apply_amplitude_multiplication : Event → ℚ → Event
  | .amplitude event, m => .amplitude (event.apply_amplitude_multiplication m)
  | .frequency event, _ => .frequency event

/-- `Event::apply_frequency_shift`. -/
def Event.apply_frequency_shift : Event → ℚ → Event
  | .amplitude event, s => .amplitude (event.apply_frequency_shift s)
  | .frequency event, s => .frequency (event.apply_frequency_shift s)

/-- `haptic_event_provider::EnvelopePosition`. -/
inductive EnvelopePosition where
  | beforeInitial (events : List Event) (index_of_initial_breakpoint : ℕ)
  | inClip (index : ℕ)
  | afterLast
  | none
deriving DecidableEq, Repr

/-- The `AfterLast` arm of `peek_amplitude_event`: ramp the amplitude of the
last breakpoint down to 0; an empty envelope (never reached for validated
clips) falls through to the `None` arm. -/
def peek_after_last (envelope : List AmplitudeBreakpoint) :
    Option Event × EnvelopePosition :=
  match envelope.getLast? with
  | some last_breakpoint =>
    (some (Event.from_amplitude_breakpoints last_breakpoint
      ⟨last_breakpoint.time, 0, Option.none⟩), .none)
  | Option.none => (Option.none, .none)

/-- The `InClip` arm of `peek_amplitude_event`: ramp from breakpoint `index`
to `index + 1`, falling through to `AfterLast` at the end. -/
def peek_in_clip (envelope : List AmplitudeBreakpoint) (index : ℕ) :
    Option Event × EnvelopePosition :=
  match envelope.get? index with
  | some current_breakpoint =>
    match envelope.get? (index + 1) with
    | some next_breakpoint =>
      (some (Event.from_amplitude_breakpoints current_breakpoint next_breakpoint),
        .inClip (index + 1))
    | Option.none => peek_after_last envelope
  | Option.none => peek_after_last envelope

/-- `HapticEventProvider::peek_amplitude_event`.  The source's self-recursion
only descends `BeforeInitial → InClip → AfterLast → None`, so it is split into
the per-arm functions above. -/
def peek_amplitude_event (envelope : List AmplitudeBreakpoint) :
    EnvelopePosition → Option Event × EnvelopePosition
  | .beforeInitial events index =>
    match events with
    | event :: rest => (some event, .beforeInitial rest index)
    | [] => peek_in_clip envelope index
  | .inClip index => peek_in_clip envelope index
  | .afterLast => peek_after_last envelope
  | .none => (Option.none, .none)

/-- The `InClip` arm of `peek_frequency_event`: no ramp-down after the last
frequency breakpoint. -/
def peek_frequency_in_clip (envelope : Option (List FrequencyBreakpoint))
    (index : ℕ) : Option Event × EnvelopePosition :=
  match envelope with
  | some envelope =>
    match envelope.get? index with
    | some current_breakpoint =>
      match envelope.get? (index + 1) with
      | some next_breakpoint =>
        (some (Event.from_frequency_breakpoints current_breakpoint next_breakpoint),
          .inClip (index + 1))
      | Option.none => (Option.none, .none)
    | Option.none => (Option.none, .none)
  | Option.none => (Option.none, .none)

/-- `HapticEventProvider::peek_frequency_event`.  The `AfterLast` arm is
`unreachable!()` in the source — the frequency position is never set to
`AfterLast` — and is mapped to "no event". -/
def peek_frequency_event (envelope : Option (List FrequencyBreakpoint)) :
    EnvelopePosition → Option Event × EnvelopePosition
  | .beforeInitial events index =>
    match events with
    | event :: rest => (some event, .beforeInitial rest index)
    | [] => peek_frequency_in_clip envelope index
  | .inClip index => peek_frequency_in_clip envelope index
  | .afterLast => (Option.none, .none)
  | .none => (Option.none, .none)

/-- `HapticEventProvider::amplitude_position_for_seek`. -/
def amplitude_position_for_seek (envelope : List AmplitudeBreakpoint)
    (old_position : EnvelopePosition) (seek_time : ℚ) : EnvelopePosition :=
  let index_of_initial_breakpoint :=
    match binary_search_by envelope
        (fun breakpoint => compare breakpoint.time seek_time) with
    | .inl index => index
    | .inr index => index
  match envelope.get? index_of_initial_breakpoint with
  | some initial_breakpoint =>
    let previous_breakpoint :=
      if 0 < index_of_initial_breakpoint then
        envelope.get? (index_of_initial_breakpoint - 1)
      else Option.none
    let events :=
      match previous_breakpoint with
      | some previous_breakpoint =>
        -- Ramp 1: zero-duration level change to the interpolated amplitude at
        -- the seek offset; Ramp 2: from the seek offset to the initial
        -- breakpoint, unless the two coincide.
        let interpolated_breakpoint :=
          AmplitudeBreakpoint.from_interpolated_breakpoints previous_breakpoint
            initial_breakpoint seek_time
        let events := [Event.amplitude
          { time := seek_time, duration := 0,
            amplitude := interpolated_breakpoint.amplitude,
            emphasis := Option.none }]
        if MIN_BREAKPOINT_DISTANCE <
            |initial_breakpoint.time - interpolated_breakpoint.time| then
          events ++ [Event.from_amplitude_breakpoints interpolated_breakpoint
            initial_breakpoint]
        else events
      | Option.none =>
        [Event.from_amplitude_breakpoints ⟨seek_time, 0, Option.none⟩
          initial_breakpoint]
    .beforeInitial events index_of_initial_breakpoint
  | Option.none =>
    match old_position with
    | .none => .none
    | _ => .afterLast

/-- The breakpoint-found branch of `frequency_position_for_seek`; `none`
signals that no frequency breakpoint lies at or after the seek offset. -/
def frequency_seek_find (envelope : List FrequencyBreakpoint) (seek_time : ℚ) :
    Option EnvelopePosition :=
  let index_of_initial_breakpoint :=
    match binary_search_by envelope
        (fun breakpoint => compare breakpoint.time seek_time) with
    | .inl index => index
    | .inr index => index
  match envelope.get? index_of_initial_breakpoint with
  | some initial_breakpoint =>
    let previous_breakpoint :=
      if 0 < index_of_initial_breakpoint then
        envelope.get? (index_of_initial_breakpoint - 1)
      else Option.none
    let events :=
      match previous_breakpoint with
      | some previous_breakpoint =>
        let interpolated_breakpoint :=
          FrequencyBreakpoint.from_interpolated_breakpoints previous_breakpoint
            initial_breakpoint seek_time
        let events := [Event.frequency
          { time := seek_time, duration := 0,
            frequency := interpolated_breakpoint.frequency }]
        if MIN_BREAKPOINT_DISTANCE <
            |initial_breakpoint.time - interpolated_breakpoint.time| then
          events ++ [Event.from_frequency_breakpoints interpolated_breakpoint
            initial_breakpoint]
        else events
      | Option.none =>
        [Event.from_frequency_breakpoints ⟨seek_time, 0⟩ initial_breakpoint]
    some (.beforeInitial events index_of_initial_breakpoint)
  | Option.none => Option.none

/-- `HapticEventProvider::frequency_position_for_seek`.  When the frequency
envelope has ended but the amplitude envelope has not, the source re-seeks to
the last frequency breakpoint; that recursive call always finds an initial
breakpoint, so a single unfolding is exact. -/
def frequency_position_for_seek (envelope : Option (List FrequencyBreakpoint))
    (amplitude_position : EnvelopePosition) (seek_time : ℚ) : EnvelopePosition :=
  let amplitude_position_at_end :=
    match amplitude_position with
    | .afterLast => true
    | .none => true
    | _ => false
  if amplitude_position_at_end then .none
  else
    match envelope with
    | Option.none => .none
    | some envelope =>
      match frequency_seek_find envelope seek_time with
      | some position => position
      | Option.none =>
        match envelope.getLast? with
        | some last_breakpoint =>
          (frequency_seek_find envelope last_breakpoint.time).getD .none
        | Option.none => .none

/-- `HapticEventProvider`. -/
structure HapticEventProvider where
  clip : DataModel
  amplitude_position : EnvelopePosition
  frequency_position : EnvelopePosition
  amplitude_multiplication : ℚ
  frequency_shift : ℚ
deriving DecidableEq, Repr

/-- `HapticEventProvider::seek` (clamped at 0). -/
def HapticEventProvider.seek (p : HapticEventProvider) (seek_time : ℚ) :
    HapticEventProvider :=
  let seek_time := max seek_time 0
  let amplitude_position :=
    amplitude_position_for_seek p.clip.amplitudes p.amplitude_position seek_time
  let frequency_position :=
    frequency_position_for_seek p.clip.frequencies amplitude_position seek_time
  { p with amplitude_position := amplitude_position,
           frequency_position := frequency_position }

/-- `HapticEventProvider::new`: positioned at the beginning of the clip. -/
def HapticEventProvider.new (clip : DataModel) : HapticEventProvider :=
  HapticEventProvider.seek
    { clip := clip, amplitude_position := .none, frequency_position := .none,
      amplitude_multiplication := 1, frequency_shift := 0 } 0

/-- `HapticEventProvider::stop`. -/
def HapticEventProvider.stop (p : HapticEventProvider) : HapticEventProvider :=
  { p with amplitude_position := .afterLast, frequency_position := .none }

/-- `haptic_event_provider::PeekedEvent`. -/
structure PeekedEvent where
  event : Option Event
  new_amplitude_position : EnvelopePosition
  new_frequency_position : EnvelopePosition
deriving DecidableEq, Repr

/-- `HapticEventProvider::peek_event`: peek both envelopes, apply modulation,
and pick the earlier event, the amplitude winning ties. -/
def HapticEventProvider.peek_event (p : HapticEventProvider)
    (amplitude_position frequency_position : EnvelopePosition) : PeekedEvent :=
  let peeked_amplitude := peek_amplitude_event p.clip.amplitudes amplitude_position
  let peeked_frequency :=
    match amplitude_position with
    | .none => ((Option.none : Option Event), EnvelopePosition.none)
    | .afterLast => ((Option.none : Option Event), EnvelopePosition.none)
    | _ => peek_frequency_event p.clip.frequencies frequency_position
  let amplitude_event_to_return : PeekedEvent :=
    { event := peeked_amplitude.1.map (fun event =>
        (event.apply_amplitude_multiplication p.amplitude_multiplication).apply_frequency_shift
          p.frequency_shift)
      new_amplitude_position := peeked_amplitude.2
      new_frequency_position := frequency_position }
  let frequency_event_to_return : PeekedEvent :=
    { event := peeked_frequency.1.map (fun event =>
        event.apply_frequency_shift p.frequency_shift)
      new_amplitude_position := amplitude_position
      new_frequency_position := peeked_frequency.2 }
  match peeked_amplitude.1, peeked_frequency.1 with
  | Option.none, Option.none =>
    { event := Option.none, new_amplitude_position := .none,
      new_frequency_position := .none }
  | some _, Option.none => amplitude_event_to_return
  | Option.none, some _ => frequency_event_to_return
  | some amplitude_event, some frequency_event =>
    if amplitude_event.time ≤ frequency_event.time then amplitude_event_to_return
    else frequency_event_to_return

/-- `HapticEventProvider::get_next_event`. -/
def HapticEventProvider.get_next_event (p : HapticEventProvider) :
    Option Event × HapticEventProvider :=
  let peeked := p.peek_event p.amplitude_position p.frequency_position
  (peeked.event,
    { p with amplitude_position := peeked.new_amplitude_position,
             frequency_position := peeked.new_frequency_position })

/-- `HapticEventProvider::peek_event_start_time`. -/
def HapticEventProvider.peek_event_start_time (p : HapticEventProvider) :
    Option ℚ :=
  (p.peek_event p.amplitude_position p.frequency_position).event.map Event.time

/-- The event stream obtained by calling `get_next_event` repeatedly (up to
`k` times, stopping at the first `None`). -/
def collect_events : HapticEventProvider → ℕ → List Event
  | _, 0 => []
  | p, k + 1 =>
    match p.get_next_event with
    | (some event, p') => event :: collect_events p' k
    | (Option.none, _) => []

/-! ## The waveform backend (clip-players/src/android.rs) -/

/-- `android::convert_clip_to_waveform`: emphasize (ducking amplitude
`1.1/255`), interpolate (`Q_BITS = 8`, `MIN_TIME_STEP = 0.025`), then convert
to a waveform with `max_amplitude = 2⁸ − 1`. -/
def convert_clip_to_waveform (clip : DataModel) : Waveform :=
  let amplitude_breakpoints := clip.amplitudes
  let amplitude_breakpoints := emphasize amplitude_breakpoints
    { EmphasisParameters.default with ducking_amplitude := (11 / 10) / 255 }
  let max_amplitude : ℤ := 2 ^ 8 - 1
  let interpolator := InterpolationParameters.new 8 (25 / 1000)
  let amplitude_breakpoints := Interpolator.process interpolator amplitude_breakpoints
  Waveform.from_breakpoints amplitude_breakpoints max_amplitude

/-- `android::apply_amplitude_multiplication`: scale every integer amplitude
and clamp to `[0, 255]`; a negative factor leaves the waveform unchanged. -/
def apply_amplitude_multiplication (waveform : Waveform)
    (amplitude_multiplication_factor : ℚ) : Waveform :=
  if amplitude_multiplication_factor < 0 then waveform
  else
    { waveform with amplitudes := waveform.amplitudes.map (fun amplitude =>
        max (min (f32_as_int (min ((amplitude : ℚ) * amplitude_multiplication_factor) 255)) 255) 0) }

/-- The `PlayerCommand::Seek` arm of `android::command_loop` (android.rs,
lines 182–211), as a function from the worker's state to the arguments of the
`seek_clip` host callback: `some (timings, amplitudes)` when the callback is
invoked, `none` when it is not (looping enabled, or no clip loaded). -/
def seek_command (original_clip : Option DataModel)
    (amplitude_multiplication_factor : ℚ) (is_looping_enabled : Bool)
    (seek_time : ℚ) : Option (List ℤ × List ℤ) :=
  -- negative seek times are clamped to zero
  let seek_time := max seek_time 0
  if is_looping_enabled then Option.none
  else
    match original_clip with
    | Option.none => Option.none
    | some clip =>
      match clip.truncate_before seek_time with
      | .ok clip_truncated =>
        let waveform := convert_clip_to_waveform clip_truncated
        let waveform :=
          apply_amplitude_multiplication waveform amplitude_multiplication_factor
        some (waveform.timings, waveform.amplitudes)
      | .error _ =>
        -- a truncation error means no breakpoint lies at or after the seek
        -- offset: play nothing instead of raising an error
        some ([], [])

/-! ## The v0 data model (core/datamodel/src/v0.rs) -/

/-- `v0::Breakpoint`. -/
structure V0Breakpoint where
  time : ℚ
  amplitude : ℚ
deriving DecidableEq, Repr

instance : Inhabited V0Breakpoint := ⟨⟨0, 0⟩⟩

/-- `v0::MetaData`. -/
structure V0MetaData where
  editor : String
  duration : ℚ
deriving DecidableEq, Repr

/-- `v0::Voices`. -/
structure V0Voices where
  envelopes : List (List V0Breakpoint)
  transients : List (List V0Breakpoint)
deriving DecidableEq, Repr

/-- `v0::DataModel`. -/
structure V0DataModel where
  version : Version
  metadata : V0MetaData
  voices : V0Voices
deriving DecidableEq, Repr

/-- `f32::is_nan` on the exact-rational embedding: always false (JSON cannot
encode a NaN, and rationals have none). -/
def f32_is_nan (_ : ℚ) : Bool := false

/-- The inner breakpoint loop of v0 `validate`, returning the last time seen.
Error messages keep the source's prefixes. -/
def v0_envelope_loop (lastTime : ℚ) : List V0Breakpoint → Except String ℚ
  | [] => .ok lastTime
  | breakpoint :: rest =>
    if f32_is_nan breakpoint.time then
      .error "V0 Validation Error: Timestamp of amplitude breakpoint is NaN"
    else if breakpoint.amplitude > 1 ∨ breakpoint.amplitude < 0 then
      .error "V0 Validation Error: Breakpoint amplitude out of range"
    else if lastTime > breakpoint.time then
      .error "V0 Validation Error: Breakpoint times not consecutive"
    else v0_envelope_loop breakpoint.time rest

/-- The per-envelope loop of v0 `validate`. -/
def v0_validate_envelopes (duration : ℚ) :
    List (List V0Breakpoint) → Option String
  | [] => Option.none
  | envelope :: rest =>
    match v0_envelope_loop 0 envelope with
    | .error e => some e
    | .ok lastTime =>
      if lastTime > duration then
        some "V0 Validation Error: event time is greater than the file duration"
      else v0_validate_envelopes duration rest

/-- The transient-pair loop of v0 `validate`. -/
def v0_validate_transients : List (V0Breakpoint × V0Breakpoint) → Option String
  | [] => Option.none
  | (a, b) :: rest =>
    if f32_is_nan a.time || f32_is_nan b.time then
      some "V0 Validation Error: Transient timestamp is NaN"
    else if |a.time - b.time| > 0 then
      some "V0 Validation Error: Mismatch in Transient timestamp"
    else if a.amplitude > 1 ∨ b.amplitude > 1 ∨ a.amplitude < 0 ∨ b.amplitude < 0 then
      some "V0 Validation Error: Transient amplitude out of range"
    else v0_validate_transients rest

/-- `Validation for v0::DataModel` (`validate`). -/
def v0_validate (m : V0DataModel) : Except String V0DataModel :=
  if m.voices.envelopes.isEmpty then
    .error "V0 Validation Error: Envelopes are empty"
  else if (m.voices.envelopes.headD []).isEmpty then
    .error "V0 Validation Error: Amplitude envelope is empty"
  else
    match v0_validate_envelopes m.metadata.duration m.voices.envelopes with
    | some e => .error e
    | Option.none =>
      if m.voices.transients.isEmpty then .ok m
      else if m.voices.transients.length ≠ 2 then
        .error "V0 Validation Error: Transients missing frequency points"
      else if (m.voices.transients.getD 0 []).length ≠
          (m.voices.transients.getD 1 []).length then
        .error "V0 Validation Error: Transients missing pair"
      else
        match v0_validate_transients
            ((m.voices.transients.getD 0 []).zip (m.voices.transients.getD 1 [])) with
        | some e => .error e
        | Option.none => .ok m

/-! ## Upgrading and loading (core/datamodel/src/lib.rs, v1.rs lines 344–456) -/

/-- The iteration of `add_v0_transients_to_v1_breakpoints` over the amplitude
breakpoints: a transient whose timestamp binary-searches to a breakpoint time
becomes that breakpoint's emphasis and is consumed. -/
def add_v0_transients_go :
    List AmplitudeBreakpoint → List V0Breakpoint → List V0Breakpoint →
    List AmplitudeBreakpoint
  | [], _, _ => []
  | breakpoint :: rest, t0, t1 =>
    match binary_search_by t0
        (fun transient => compare transient.time breakpoint.time) with
    | .inl index =>
      let transient_amplitude := (t0.getD index default).amplitude
      let transient_frequency := (t1.getD index default).amplitude
      { breakpoint with emphasis := some ⟨transient_amplitude, transient_frequency⟩ } ::
        add_v0_transients_go rest (t0.eraseIdx index) (t1.eraseIdx index)
    | .inr _ => breakpoint :: add_v0_transients_go rest t0 t1

/-- `v1::add_v0_transients_to_v1_breakpoints`. -/
def add_v0_transients_to_v1_breakpoints (v0_transients : List (List V0Breakpoint))
    (v1_amplitude_breakpoints : List AmplitudeBreakpoint) :
    List AmplitudeBreakpoint :=
  if v0_transients.length ≠ 2 ∨
      (v0_transients.getD 0 []).length ≠ (v0_transients.getD 1 []).length then
    v1_amplitude_breakpoints
  else
    add_v0_transients_go v1_amplitude_breakpoints (v0_transients.getD 0 [])
      (v0_transients.getD 1 [])

/-- `impl From<v0::DataModel> for v1::DataModel`: map the first envelope to
amplitude, append a final breakpoint at the clip duration, map the second
envelope (if any) to frequency, attach matching transients as emphasis.
(`v0.voices.envelopes[0]` is only evaluated on validated models, whose
envelope list is non-empty; `headD` covers that case.) -/
def v0_to_v1 (v0 : V0DataModel) : DataModel :=
  let amplitude_envelopes := (v0.voices.envelopes.headD []).map
    (fun breakpoint => AmplitudeBreakpoint.mk breakpoint.time breakpoint.amplitude Option.none)
  let event_amplitude_to_add :=
    match amplitude_envelopes.getLast? with
    | some last_event =>
      if v0.metadata.duration > last_event.time then some last_event.amplitude
      else Option.none
    | Option.none => some (0 : ℚ)
  let amplitude_envelopes :=
    match event_amplitude_to_add with
    | some amplitude =>
      amplitude_envelopes ++ [⟨v0.metadata.duration, amplitude, Option.none⟩]
    | Option.none => amplitude_envelopes
  let frequency_envelopes :=
    if v0.voices.envelopes.length = 2 then
      (v0.voices.envelopes.getD 1 []).map
        (fun breakpoint => FrequencyBreakpoint.mk breakpoint.time breakpoint.amplitude)
    else []
  let amplitude_envelopes :=
    add_v0_transients_to_v1_breakpoints v0.voices.transients amplitude_envelopes
  { version := ⟨1, 0, 0⟩
    metadata := { editor := v0.metadata.editor, author := "", source := "",
                  project := "", tags := [], description := "" }
    signals := ⟨⟨{ amplitude := amplitude_envelopes
                   frequency := if frequency_envelopes.isEmpty then Option.none
                     else some frequency_envelopes }⟩⟩ }

/-- `v1::DataModel::CURRENT` = 1.0.0. -/
def CURRENT : Version := ⟨1, 0, 0⟩

/-- The derived `PartialOrd` of `version::Version`: lexicographic on
(major, minor, patch); total since the fields are `u32`. -/
def version_lt (a b : Version) : Bool :=
  if a.major ≠ b.major then decide (a.major < b.major)
  else if a.minor ≠ b.minor then decide (a.minor < b.minor)
  else decide (a.patch < b.patch)

/-- `lib::DataModel`: a clip in either schema. -/
inductive DataModelAny where
  | V0 (m : V0DataModel)
  | V1 (m : DataModel)
deriving DecidableEq, Repr

/-- `lib::VersionSupport`. -/
inductive VersionSupport where
  | Full
  | Partial
deriving DecidableEq, Repr

/-- A `.haptic` file at the loader boundary.  JSON parsing is the external
serde layer (out of scope in the spec); a file is represented by the version
extracted by `Version::from_json` and the outcomes of deserializing its bytes
under each schema. -/
structure HapticFile where
  version : Version
  v1_parse : Except String DataModel
  v0_parse : Except String V0DataModel

/-- `lib::from_json`: dispatch on the extracted version — any 1.x.y file goes
through the v1 deserializer and validator, exactly 0.2.0 through the legacy
v0 path, everything else is rejected. -/
def from_json (data : HapticFile) : Except String DataModelAny :=
  if data.version.major = 1 then
    match data.v1_parse with
    | .ok deserialized_data =>
      match deserialized_data.validate with
      | .ok validated_data => .ok (.V1 validated_data)
      | .error e => .error ("Error validating V1: " ++ e)
    | .error e => .error ("Error deserializing V1: " ++ e)
  else if data.version.major = 0 ∧ data.version.minor = 2 ∧ data.version.patch = 0 then
    match data.v0_parse with
    | .ok deserialized_data =>
      match v0_validate deserialized_data with
      | .ok validated_data => .ok (.V0 validated_data)
      | .error e => .error ("Error validating V0: " ++ e)
    | .error e => .error ("Error deserializing V0: " ++ e)
  else .error "Unsupported version"

/-- `lib::upgrade_to_latest`: v0 data is converted; v1 data below `CURRENT`
is upgraded, equal to `CURRENT` passes through, above `CURRENT` passes
through with `Partial` support. -/
def upgrade_to_latest (data : DataModelAny) :
    Except String (VersionSupport × DataModel) :=
  match data with
  | .V0 v0_data => .ok (.Full, v0_to_v1 v0_data)
  | .V1 v1 =>
    if version_lt v1.version CURRENT then
      .ok (.Full, { v1 with version := CURRENT })
    else if v1.version = CURRENT then .ok (.Full, v1)
    else .ok (.Partial, v1)

/-- `lib::latest_from_json`. -/
def latest_from_json (data : HapticFile) :
    Except String (VersionSupport × DataModel) :=
  match from_json data with
  | .ok m => upgrade_to_latest m
  | .error e => .error e

/-! ## Predicates used by the claims -/

/-- The elements of `l` are sorted by the key `f` (non-decreasing). -/
def SortedBy {α : Type} (f : α → ℚ) (l : List α) : Prop :=
  List.Pairwise (fun a b => f a ≤ f b) l

/-- Every amplitude of the envelope lies in `[0, 1]`. -/
def AmpsInRange (l : List AmplitudeBreakpoint) : Prop :=
  ∀ bp ∈ l, 0 ≤ bp.amplitude ∧ bp.amplitude ≤ 1

/-- A valid amplitude envelope in the sense of the v1 validator: sorted
non-negative times and amplitudes in `[0, 1]`. -/
def ValidAmplitudes (l : List AmplitudeBreakpoint) : Prop :=
  SortedBy AmplitudeBreakpoint.time l ∧ (∀ bp ∈ l, 0 ≤ bp.time) ∧ AmpsInRange l

/-- A valid frequency envelope: sorted non-negative times. -/
def ValidFrequencies (l : List FrequencyBreakpoint) : Prop :=
  SortedBy FrequencyBreakpoint.time l ∧ ∀ bp ∈ l, 0 ≤ bp.time

/-- `Event`'s duration field (both variants carry one). -/
def Event.duration : Event → ℚ
  | .amplitude event => event.duration
  | .frequency event => event.duration

/-- Whether an event is an amplitude event. -/
def Event.isAmplitude : Event → Bool
  | .amplitude _ => true
  | .frequency _ => false

/-- Whether an event is a frequency event. -/
def Event.isFrequency : Event → Bool
  | .amplitude _ => false
  | .frequency _ => true

/-- The spec's monotonicity clause, with an explicit lower bound for the head:
each event starts no earlier than the previous one. -/
def EventsMono (b : ℚ) : List Event → Prop
  | [] => True
  | e :: rest => b ≤ e.time ∧ EventsMono e.time rest

/-- The spec's non-overlap clause, with an explicit lower bound for the head:
each event starts no earlier than the previous one's end. -/
def EventsNonOverlap (b : ℚ) : List Event → Prop
  | [] => True
  | e :: rest => b ≤ e.time ∧ EventsNonOverlap (e.time + e.duration) rest

/-- Chain invariant of the amplitude stream in the `AfterLast` position: the
previous event ends no later than the final ramp-down's start. -/
def AAfterOK (env : List AmplitudeBreakpoint) (aend : ℚ) : Prop :=
  match env.getLast? with
  | some l => aend ≤ l.time
  | Option.none => True

/-- Chain invariant of the amplitude stream in the `InClip i` position. -/
def AInOK (env : List AmplitudeBreakpoint) (i : ℕ) (aend : ℚ) : Prop :=
  (i < env.length → aend ≤ (env.getD i default).time) ∧
  (env.length ≤ i → AAfterOK env aend)

/-- Chain invariant of the pending events of a `BeforeInitial` amplitude
position: amplitude-kind events with nonnegative durations, chained
end-to-start, ending before breakpoint `idx`. -/
def APend (env : List AmplitudeBreakpoint) (idx : ℕ) :
    ℚ → List Event → Prop
  | aend, [] => AInOK env idx aend
  | aend, .amplitude e :: rest =>
    aend ≤ e.time ∧ 0 ≤ e.duration ∧ APend env idx (e.time + e.duration) rest
  | _, .frequency _ :: _ => False

/-- Chain invariant of the amplitude stream: from position `pos`, every
emitted event is an amplitude event starting at or after `aend` (the previous
amplitude event's end), with nonnegative duration, and the invariant carries
to the successor position. -/
def AmpChain (env : List AmplitudeBreakpoint) (aend : ℚ) :
    EnvelopePosition → Prop
  | .beforeInitial events idx => APend env idx aend events
  | .inClip i => AInOK env i aend
  | .afterLast => AAfterOK env aend
  | .none => True

/-- Chain invariant of the frequency stream in the `InClip i` position (an
event is only emitted when breakpoints `i` and `i + 1` both exist). -/
def FInOK (fenv : Option (List FrequencyBreakpoint)) (i : ℕ) (fend : ℚ) :
    Prop :=
  match fenv with
  | some env => i + 1 < env.length → fend ≤ (env.getD i default).time
  | Option.none => True

/-- Chain invariant of the pending events of a `BeforeInitial` frequency
position. -/
def FPend (fenv : Option (List FrequencyBreakpoint)) (idx : ℕ) :
    ℚ → List Event → Prop
  | fend, [] => FInOK fenv idx fend
  | fend, .frequency e :: rest =>
    fend ≤ e.time ∧ 0 ≤ e.duration ∧
      FPend fenv idx (e.time + e.duration) rest
  | _, .amplitude _ :: _ => False

/-- Chain invariant of the frequency stream (the `AfterLast` and `None`
positions emit nothing). -/
def FreqChain (fenv : Option (List FrequencyBreakpoint)) (fend : ℚ) :
    EnvelopePosition → Prop
  | .beforeInitial events idx => FPend fenv idx fend events
  | .inClip i => FInOK fenv i fend
  | .afterLast => True
  | .none => True

/-- An amplitude position at which `peek_event` still consults the frequency
envelope (`AfterLast` and `None` force the frequency side to nothing). -/
def ampActive : EnvelopePosition → Prop
  | .beforeInitial _ _ => True
  | .inClip _ => True
  | .afterLast => False
  | .none => False

/-! ## Concrete inputs used by the claims -/

/-- The C1 failing input: amplitude breakpoints at times 0, 1, 2 and
`truncate_before(1.0)`, where `1.0` is exactly the second breakpoint's time. -/
def c1_input : DataModel :=
  { version := ⟨1, 0, 0⟩
    metadata := ⟨"", "", "", "", [], ""⟩
    signals := ⟨⟨⟨[⟨0, 0, Option.none⟩, ⟨1, 1/2, Option.none⟩, ⟨2, 1, Option.none⟩],
      Option.none⟩⟩⟩ }

/-- A minimal valid v0 clip with version 0.1.0, used to refute "dispatch by
major": its major is the legacy major 0, yet the loader rejects it. -/
def c8_v0_clip : V0DataModel := ⟨⟨0, 1, 0⟩, ⟨"", 1⟩, ⟨[[⟨0, 1/2⟩]], []⟩⟩

/-- The v1 clip used by the C8 witness: version 1.1.0, one breakpoint. -/
def c8_v1_clip : DataModel :=
  { version := ⟨1, 1, 0⟩
    metadata := ⟨"", "", "", "", [], ""⟩
    signals := ⟨⟨⟨[⟨0, 1/2, Option.none⟩], Option.none⟩⟩⟩ }

/-- The clip used by the C9 witness. -/
def c9_clip : DataModel :=
  { version := ⟨1, 0, 0⟩
    metadata := ⟨"", "", "", "", [], ""⟩
    signals := ⟨⟨⟨[⟨0, 0, Option.none⟩, ⟨1/10, 1/2, Option.none⟩], Option.none⟩⟩⟩ }

/-- A small valid clip with one emphasis, for the C7 witness. -/
def c7_clip : DataModel :=
  { version := ⟨1, 0, 0⟩
    metadata := ⟨"", "", "", "", [], ""⟩
    signals := ⟨⟨⟨[⟨0, 1/2, some ⟨1, 1/2⟩⟩, ⟨1, 1/4, Option.none⟩],
      Option.none⟩⟩⟩ }

/-- A valid two-envelope clip: amplitude `[(0, 0.1), (0.1, 0.2)]`, frequency
`[(0, 0.95), (0.1, 0.9)]`. -/
def c5_clip : DataModel :=
  { version := ⟨1, 0, 0⟩
    metadata := ⟨"", "", "", "", [], ""⟩
    signals := ⟨⟨⟨[⟨0, 1/10, Option.none⟩, ⟨1/10, 2/10, Option.none⟩],
      some [⟨0, 95/100⟩, ⟨1/10, 9/10⟩]⟩⟩⟩ }

/-! ## General-purpose theorems -/

/-- Evaluation helper for `Int.toNat` on small literals. -/
theorem int_toNat_two : Int.toNat 2 = 2 := rfl

/-- A linear interpolation between two values in `[0,1]`, evaluated inside the
time interval, stays in `[0,1]` (the degenerate interval returns `value_b`). -/
theorem interpolate_range (time_a time_b value_a value_b time : ℚ)
    (h1 : time_a ≤ time) (h2 : time ≤ time_b)
    (ha0 : 0 ≤ value_a) (ha1 : value_a ≤ 1)
    (hb0 : 0 ≤ value_b) (hb1 : value_b ≤ 1) :
    0 ≤ interpolate time_a time_b value_a value_b time ∧
      interpolate time_a time_b value_a value_b time ≤ 1 := by
  simp only [interpolate]
  split_ifs with hd
  · exact ⟨hb0, hb1⟩
  · have hpos : 0 < time_b - time_a := by
      rcases lt_or_eq_of_le (le_trans h1 h2) with h | h
      · linarith
      · exact absurd (by rw [h]; ring) hd
    have hf0 : 0 ≤ (time - time_a) / (time_b - time_a) :=
      div_nonneg (by linarith) hpos.le
    have hf1 : (time - time_a) / (time_b - time_a) ≤ 1 := by
      rw [div_le_one hpos]
      linarith
    set f := (time - time_a) / (time_b - time_a) with hf
    have hval : value_a + (value_b - value_a) * f =
        value_a * (1 - f) + value_b * f := by ring
    constructor
    · rw [hval]
      have := mul_nonneg ha0 (by linarith : (0:ℚ) ≤ 1 - f)
      have := mul_nonneg hb0 hf0
      linarith
    · rw [hval]
      have := mul_le_mul_of_nonneg_right ha1 (by linarith : (0:ℚ) ≤ 1 - f)
      have := mul_le_mul_of_nonneg_right hb1 hf0
      linarith

/-- If `rposition` finds nothing, no element satisfies the predicate. -/
theorem rposition_eq_none {α : Type} (p : α → Bool) (l : List α)
    (h : rposition p l = none) : ∀ x ∈ l, p x = false := by
  induction l with
  | nil => intro x hx; exact absurd hx (by simp)
  | cons z zs ih =>
    rw [rposition] at h
    match hz : rposition p zs with
    | some _ => rw [hz] at h; exact absurd h (by simp)
    | none =>
      rw [hz] at h
      intro x hx
      rcases List.mem_cons.mp hx with hh | hh
      · subst hh
        by_contra hcon
        rw [if_pos (by simpa using hcon)] at h
        exact absurd h (by simp)
      · exact ih hz x hh

/-- Specification of `rposition`: the returned index is in range, satisfies
the predicate, and every later index does not. -/
theorem rposition_spec {α : Type} [Inhabited α] (p : α → Bool) (l : List α)
    (j : ℕ) (h : rposition p l = some j) :
    j < l.length ∧ p (l.getD j default) = true ∧
      ∀ k, j < k → k < l.length → p (l.getD k default) = false := by
  induction l generalizing j with
  | nil => exact absurd h (by simp [rposition])
  | cons x xs ih =>
    rw [rposition] at h
    match hx : rposition p xs with
    | some j' =>
      rw [hx] at h
      injection h with h
      subst h
      obtain ⟨hlen, hsat, hlater⟩ := ih j' hx
      refine ⟨by simpa using hlen, by simpa using hsat, ?_⟩
      intro k hk1 hk2
      match k, hk1 with
      | k + 1, hk1 =>
        have : p (xs.getD k default) = false :=
          hlater k (by omega) (by simpa using hk2)
        simpa using this
    | none =>
      rw [hx] at h
      have hnone : ∀ y ∈ xs, p y = false := rposition_eq_none p xs hx
      split_ifs at h with hpx
      · injection h with h
        subst h
        refine ⟨by simp, by simpa using hpx, ?_⟩
        intro k hk1 hk2
        match k, hk1 with
        | k + 1, _ =>
          have hklen : k < xs.length := by simpa using hk2
          have : xs.getD k default ∈ xs := by
            rw [List.getD_eq_getElem xs default hklen]
            exact List.getElem_mem hklen
          simpa using hnone _ this

/-- Specification of `List.findIdx?`: the returned index is in range,
satisfies the predicate, and every earlier index does not. -/
theorem findIdx?_spec {α : Type} [Inhabited α] (p : α → Bool) (l : List α)
    (j : ℕ) (h : l.findIdx? p = some j) :
    j < l.length ∧ p (l.getD j default) = true ∧
      ∀ k, k < j → p (l.getD k default) = false := by
  induction l generalizing j with
  | nil => exact absurd h (by simp)
  | cons x xs ih =>
    rw [List.findIdx?_cons] at h
    split_ifs at h with hpx
    · injection h with h
      subst h
      exact ⟨by simp, by simpa using hpx, fun k hk => absurd hk (by omega)⟩
    · rw [List.findIdx?_succ] at h
      match hx : xs.findIdx? p with
      | some j' =>
        rw [hx] at h
        simp only [Option.map_some'] at h
        injection h with h
        subst h
        obtain ⟨hlen, hsat, hearlier⟩ := ih j' hx
        refine ⟨by simpa using hlen, by simpa using hsat, ?_⟩
        intro k hk
        match k with
        | 0 => simpa using hpx
        | k + 1 => simpa using hearlier k (by omega)
      | none => rw [hx] at h; exact absurd h (by simp)

/-- The last pushed time, for a non-empty result list, is an upper bound of
all times in it (when the times are sorted). -/
theorem time_le_last_time (l : List AmplitudeBreakpoint)
    (hl : SortedBy AmplitudeBreakpoint.time l) :
    ∀ bp ∈ l, bp.time ≤ last_time l := by
  have hl' : List.Pairwise (fun a b : AmplitudeBreakpoint => a.time ≤ b.time) l := hl
  clear hl
  induction hl' with
  | nil => intro bp hbp; exact absurd hbp (by simp)
  | @cons x xs hhead htail ih =>
    intro bp hbp
    match xs, hhead, htail, ih, hbp with
    | [], _, _, _, hbp =>
      have hbx : bp = x := by simpa using hbp
      subst hbx
      simp [last_time]
    | y :: ys, hhead, htail, ih, hbp =>
      have hlast : last_time (x :: y :: ys) = last_time (y :: ys) := by
        simp [last_time]
      rw [hlast]
      rcases List.mem_cons.mp hbp with h | h
      · subst h
        calc bp.time ≤ y.time := hhead y (by simp)
          _ ≤ last_time (y :: ys) := ih y (by simp)
      · exact ih bp h

/-- Appending a sorted block whose times all dominate the current
`last_time` preserves sortedness. -/
theorem sortedBy_append (l new : List AmplitudeBreakpoint)
    (hl : SortedBy AmplitudeBreakpoint.time l)
    (hnew : SortedBy AmplitudeBreakpoint.time new)
    (hle : ∀ bp ∈ new, last_time l ≤ bp.time) :
    SortedBy AmplitudeBreakpoint.time (l ++ new) := by
  rw [SortedBy, List.pairwise_append]
  refine ⟨hl, hnew, ?_⟩
  intro a ha b hb
  calc a.time ≤ last_time l := time_le_last_time l hl a ha
    _ ≤ b.time := hle b hb

/-- `last_time` after appending a non-empty block is the block's last time. -/
theorem last_time_append (l new : List AmplitudeBreakpoint) (hne : new ≠ []) :
    last_time (l ++ new) = last_time new := by
  unfold last_time
  rw [List.getLast?_append]
  match new, hne with
  | x :: xs, _ => rfl

/-! ## Claim C10 — `Interpolator::process` on fewer than two breakpoints -/

/-- **C10.** For every input list containing fewer than two amplitude
breakpoints, `Interpolator::process` returns an empty list: a lone breakpoint
is not retained in the output. -/
theorem claim_C10 (p : InterpolationParameters)
    (amplitude_breakpoints : List AmplitudeBreakpoint)
    (h : amplitude_breakpoints.length < 2) :
    Interpolator.process p amplitude_breakpoints = [] := by
  match amplitude_breakpoints, h with
  | [], _ => rfl
  | [_], _ => rfl

/-- Witness for C10 at a concrete one-element input. -/
theorem claim_C10_witness :
    ([(⟨0, 1/2, Option.none⟩ : AmplitudeBreakpoint)].length < 2) ∧
      Interpolator.process (InterpolationParameters.new 8 (25/1000))
        [⟨0, 1/2, Option.none⟩] = [] :=
  ⟨by decide,
    claim_C10 (InterpolationParameters.new 8 (25/1000)) [⟨0, 1/2, Option.none⟩]
      (by decide)⟩

/-! ## Claim C6 — amplitude multiplication is `clamp(a·m², 0, 1)` -/

/-- **C6.** For every amplitude event with pre-modulation amplitude in `[0,1]`
and every multiplication factor `m ≥ 0`, `apply_amplitude_multiplication`
(the modulation applied by `peek_event` to every emitted amplitude event)
yields amplitude `clamp(a·m², 0, 1)`, and transforms a present emphasis
amplitude by the same formula, leaving the emphasis frequency unchanged. -/
theorem claim_C6 (e : AmplitudeEvent) (m : ℚ)
    (h0 : 0 ≤ e.amplitude) (h1 : e.amplitude ≤ 1) (hm : 0 ≤ m) :
    (e.apply_amplitude_multiplication m).amplitude =
      clamp (e.amplitude * m ^ 2) 0 1 ∧
    (∀ emp, e.emphasis = some emp → 0 ≤ emp.amplitude →
      (e.apply_amplitude_multiplication m).emphasis =
        some ⟨clamp (emp.amplitude * m ^ 2) 0 1, emp.frequency⟩) := by
  constructor
  · have hmax : max (e.amplitude * m) 0 = e.amplitude * m :=
      max_eq_left (mul_nonneg h0 hm)
    have hnn : 0 ≤ e.amplitude * m * m := mul_nonneg (mul_nonneg h0 hm) hm
    simp only [AmplitudeEvent.apply_amplitude_multiplication, clamp, hmax]
    rw [pow_two, ← mul_assoc, max_eq_left (le_min hnn zero_le_one)]
  · intro emp hemp hemp0
    have hmax : max (emp.amplitude * m) 0 = emp.amplitude * m :=
      max_eq_left (mul_nonneg hemp0 hm)
    have hnn : 0 ≤ emp.amplitude * m * m := mul_nonneg (mul_nonneg hemp0 hm) hm
    simp only [AmplitudeEvent.apply_amplitude_multiplication, hemp, clamp, hmax]
    rw [pow_two, ← mul_assoc, max_eq_left (le_min hnn zero_le_one)]

/-- Witness for C6: amplitude `1/2`, emphasis amplitude `3/4`, factor `2`. -/
theorem claim_C6_witness :
    ((⟨0, 0, 1/2, some ⟨3/4, 1/2⟩⟩ :
        AmplitudeEvent).apply_amplitude_multiplication 2).amplitude =
      clamp ((1/2 : ℚ) * 2 ^ 2) 0 1 ∧
    ((⟨0, 0, 1/2, some ⟨3/4, 1/2⟩⟩ :
        AmplitudeEvent).apply_amplitude_multiplication 2).emphasis =
      some ⟨clamp ((3/4 : ℚ) * 2 ^ 2) 0 1, 1/2⟩ := by
  have h := claim_C6 ⟨0, 0, 1/2, some ⟨3/4, 1/2⟩⟩ 2 (by norm_num) (by norm_num)
    (by norm_num)
  exact ⟨h.1, h.2 ⟨3/4, 1/2⟩ rfl (by norm_num)⟩

/-! ## Claim C2 — the waveform cell amplitude -/

/-- **C2, counterexample.** The claim says the emitted integer amplitude is
`round(a · max_amplitude)` clamped to `[0, max_amplitude]`.  On the pair
`(0, 0.5), (0.1, 0)` with `max_amplitude = 255` the builder emits amplitude
`127` (`0.5 · 255 = 127.5` truncated by the `as i32` cast), while the claimed
formula gives `128` (round half away from zero). -/
theorem claim_C2_counterexample :
    (Waveform.from_breakpoints
        [⟨0, 1/2, Option.none⟩, ⟨1/10, 0, Option.none⟩] 255).amplitudes = [127] ∧
    max (min (rust_round ((1/2 : ℚ) * 255)) 255) 0 = 128 := by
  refine ⟨?_, ?_⟩
  · norm_num [Waveform.from_breakpoints, from_breakpoints_go, waveform_step,
      rust_round, f32_as_int]
  · norm_num [rust_round]

/-- **C2, amended.** For every pair of consecutive breakpoints that produces a
waveform cell, the cell's integer amplitude is the left breakpoint's amplitude
scaled by `max_amplitude` and **truncated toward zero** (the `as i32` cast) —
not rounded; no clamping is applied, but for a valid amplitude in `[0,1]` and
`max_amplitude ≥ 0` the result lies in `[0, max_amplitude]` anyway. -/
theorem claim_C2_amended (max_amplitude : ℤ) (accumulated : ℚ)
    (a b : AmplitudeBreakpoint) (cell : ℤ × ℤ)
    (h : (waveform_step max_amplitude accumulated a b).1 = some cell) :
    cell.2 = f32_as_int (a.amplitude * (max_amplitude : ℚ)) ∧
    (0 ≤ a.amplitude → a.amplitude ≤ 1 → 0 ≤ max_amplitude →
      0 ≤ cell.2 ∧ cell.2 ≤ max_amplitude) := by
  have hcell : cell.2 = f32_as_int (a.amplitude * (max_amplitude : ℚ)) := by
    simp only [waveform_step] at h
    split_ifs at h
    all_goals first
      | rw [← Option.some.inj h]
      | exact absurd h (by simp)
  refine ⟨hcell, fun h0 h1 hmax => ?_⟩
  have hq0 : (0 : ℚ) ≤ a.amplitude * (max_amplitude : ℚ) :=
    mul_nonneg h0 (by exact_mod_cast hmax)
  have hqle : a.amplitude * (max_amplitude : ℚ) ≤ (max_amplitude : ℚ) := by
    calc a.amplitude * (max_amplitude : ℚ) ≤ 1 * (max_amplitude : ℚ) := by
          apply mul_le_mul_of_nonneg_right h1 (by exact_mod_cast hmax)
      _ = (max_amplitude : ℚ) := one_mul _
  rw [hcell]
  unfold f32_as_int
  rw [if_pos hq0]
  constructor
  · exact Int.floor_nonneg.mpr hq0
  · calc ⌊a.amplitude * (max_amplitude : ℚ)⌋ ≤ ⌊(max_amplitude : ℚ)⌋ :=
          Int.floor_le_floor hqle
      _ = max_amplitude := Int.floor_intCast _

/-- Witness for C2's amended theorem at the counterexample's input. -/
theorem claim_C2_amended_witness :
    (waveform_step 255 0 ⟨0, 1/2, Option.none⟩ ⟨1/10, 0, Option.none⟩).1 =
      some (100, 127) ∧
    (127 : ℤ) = f32_as_int ((1/2 : ℚ) * (255 : ℤ)) ∧ (0 ≤ (127 : ℤ) ∧ (127 : ℤ) ≤ 255) := by
  have hstep : (waveform_step 255 0 (⟨0, 1/2, Option.none⟩ : AmplitudeBreakpoint)
      ⟨1/10, 0, Option.none⟩).1 = some (100, 127) := by
    norm_num [waveform_step, rust_round, f32_as_int]
  have h := claim_C2_amended 255 0 ⟨0, 1/2, Option.none⟩ ⟨1/10, 0, Option.none⟩
    (100, 127) hstep
  exact ⟨hstep, h.1, h.2 (by norm_num) (by norm_num) (by norm_num)⟩

/-! ## Claim C4 — when the interpolator samples -/

/-- **C4, counterexample.** With `min_time_step = 0.025` and a breakpoint gap
of `Δt = 0.03` we have `Δt > min_time_step`, yet
`N = floor(Δt/min_time_step) + 1 = 2 < 3`: the claimed "`N ≥ 3` points are
sampled" is false — `linear_space_interpolation` outputs exactly the two
endpoints. -/
theorem claim_C4_counterexample :
    (InterpolationParameters.new 8 (25/1000)).min_time_step < (3/100 : ℚ) - 0 ∧
    f32_as_usize ((InterpolationParameters.new 8 (25/1000)).sampling_freq *
      ((3/100 : ℚ) - 0) + 1) = 2 ∧
    linear_space_interpolation (InterpolationParameters.new 8 (25/1000))
      0 (3/100) 0 1 = ([0, 3/100], [0, 1]) := by
  refine ⟨by norm_num [InterpolationParameters.new],
    by norm_num [InterpolationParameters.new, f32_as_usize, int_toNat_two], ?_⟩
  norm_num [InterpolationParameters.new, linear_space_interpolation, f32_as_usize,
    int_toNat_two]

/-- **C4, amended.** For parameters built from `q_bits` and a positive
`min_time_step` `s` and a pair at distance `Δt = t_b − t_a ≥ 0`:
if `Δt > s` **and** `N = floor(Δt/s) + 1 ≥ 3`, the interpolator samples
exactly `N` points linearly in time with linearly interpolated amplitudes;
in every other case — `Δt ≤ s`, or `s < Δt` with `N = 2` — it outputs exactly
the two endpoint breakpoints. -/
theorem claim_C4_amended (q_bits : ℕ) (s time_a time_b amp_a amp_b : ℚ)
    (p : InterpolationParameters) (N : ℕ)
    (hs : 0 < s) (hab : time_a ≤ time_b)
    (hpdef : p = InterpolationParameters.new q_bits s)
    (hNdef : N = (⌊(time_b - time_a) / s⌋).toNat + 1) :
    (s < time_b - time_a ∧ 3 ≤ N →
      linear_space_interpolation p time_a time_b amp_a amp_b =
        (linspace time_a time_b N,
          (linspace time_a time_b N).map (fun x =>
            interpolate time_a time_b amp_a amp_b (clamp x time_a time_b))) ∧
      (linspace time_a time_b N).length = N) ∧
    (time_b - time_a ≤ s ∨ N < 3 →
      linear_space_interpolation p time_a time_b amp_a amp_b =
        ([time_a, time_b], [amp_a, amp_b])) := by
  have hp : p = ⟨2 ^ q_bits, s, 1 / s⟩ := by
    rw [hpdef]
    simp [InterpolationParameters.new, hs]
  have hdnn : (0 : ℚ) ≤ (time_b - time_a) / s :=
    div_nonneg (by linarith) hs.le
  have hflnn : 0 ≤ ⌊(time_b - time_a) / s⌋ := Int.floor_nonneg.mpr hdnn
  have harg : p.sampling_freq * (time_b - time_a) + 1 =
      (time_b - time_a) / s + 1 := by
    rw [hp]
    rw [one_div_mul_eq_div]
  have htotal : f32_as_usize (p.sampling_freq * (time_b - time_a) + 1) = N := by
    rw [harg]
    simp only [f32_as_usize]
    rw [if_pos (by linarith), Int.floor_add_one]
    rw [hNdef]
    omega
  constructor
  · rintro ⟨hgt, hN⟩
    have hcond : p.min_time_step < time_b - time_a ∧
        3 ≤ f32_as_usize (p.sampling_freq * (time_b - time_a) + 1) := by
      rw [htotal]
      rw [hp]
      exact ⟨hgt, hN⟩
    constructor
    · simp only [linear_space_interpolation]
      rw [if_pos hcond, htotal]
    · unfold linspace
      rw [List.length_map, List.length_range]
  · intro hcase
    have hcond : ¬ (p.min_time_step < time_b - time_a ∧
        3 ≤ f32_as_usize (p.sampling_freq * (time_b - time_a) + 1)) := by
      rw [htotal]
      rw [hp]
      rcases hcase with hle | hlt
      · exact fun hc => absurd hc.1 (not_lt.mpr hle)
      · exact fun hc => absurd hc.2 (by omega)
    simp only [linear_space_interpolation]
    rw [if_neg hcond]

/-- Witness for C4's amended theorem: a sampling case (`Δt = 0.05`, `N = 3`)
and an endpoint case (`Δt = 0.03`, `N = 2`), both with `s = 0.025`. -/
theorem claim_C4_amended_witness :
    linear_space_interpolation (InterpolationParameters.new 8 (25/1000))
      0 (5/100) 0 1 = ([0, 1/40, 1/20], [0, 1/2, 1]) ∧
    linear_space_interpolation (InterpolationParameters.new 8 (25/1000))
      0 (3/100) 0 1 = ([0, 3/100], [0, 1]) := by
  have hfl2 : ⌊((5:ℚ)/100 - 0) / (25/1000)⌋ = 2 := by norm_num
  have hfl1 : ⌊((3:ℚ)/100 - 0) / (25/1000)⌋ = 1 := by
    rw [show ((3:ℚ)/100 - 0) / (25/1000) = 6/5 by norm_num]
    rw [Int.floor_eq_iff] <;> norm_num
  have h1 := (claim_C4_amended 8 (25/1000) 0 (5/100) 0 1
    (InterpolationParameters.new 8 (25/1000)) 3 (by norm_num) (by norm_num)
    rfl (by rw [hfl2]; decide)).1 ⟨by norm_num, by norm_num⟩
  have h2 := (claim_C4_amended 8 (25/1000) 0 (3/100) 0 1
    (InterpolationParameters.new 8 (25/1000)) 2 (by norm_num) (by norm_num)
    rfl (by rw [hfl1]; decide)).2 (Or.inr (by norm_num))
  refine ⟨?_, h2⟩
  rw [h1.1]
  norm_num [linspace, interpolate, clamp, List.range_succ, int_toNat_two]

/-! ## Claim C1 — `truncate_before` at an existing breakpoint time -/


/-- **C1.** The claim (and the function's own doc comment) says that truncating
at a time equal to an existing breakpoint's time only removes earlier
breakpoints and shifts the rest, inserting no interpolated initial breakpoint.
The code's guard compares the *gap between the two neighbours* with
`f32::EPSILON` instead of comparing `t` with the breakpoint's time, so on the
failing input it inserts a duplicated interpolated breakpoint at time 0: the
result has three breakpoints, not the two the claim predicts. -/
theorem claim_C1 :
    (∀ m', c1_input.truncate_before 1 = .ok m' →
      m'.amplitudes =
        [⟨0, 1/2, Option.none⟩, ⟨0, 1/2, Option.none⟩, ⟨1, 1, Option.none⟩]) ∧
    ([(⟨0, 1/2, Option.none⟩ : AmplitudeBreakpoint), ⟨0, 1/2, Option.none⟩,
        ⟨1, 1, Option.none⟩] ≠ [⟨0, 1/2, Option.none⟩, ⟨1, 1, Option.none⟩]) := by
  constructor
  · intro m' hm'
    have hres : c1_input.truncate_before 1 =
        .ok { c1_input with signals := ⟨⟨⟨[⟨0, 1/2, Option.none⟩,
          ⟨0, 1/2, Option.none⟩, ⟨1, 1, Option.none⟩], Option.none⟩⟩⟩ } := by
      norm_num [c1_input, DataModel.truncate_before, truncate_amplitude,
        DataModel.amplitudes, DataModel.frequencies, List.findIdx?, interpolate,
        eps32, List.filter, List.getD, List.get?]
    rw [hres] at hm'
    injection hm' with hm'
    rw [← hm']
    rfl
  · intro hcontra
    exact absurd (congrArg List.length hcontra) (by norm_num)

/-! ## Claim C3 — NaN and the v1 validator -/

/-- **C3, counterexample.** The claim says a clip with a NaN numeric field is
rejected by validation.  A clip whose single amplitude breakpoint has a NaN
amplitude (`none` in the `F32` model) passes validation: all range checks are
`<`/`>` comparisons, which are false for NaN. -/
theorem claim_C3_counterexample :
    validate_f [⟨F32.val 0, Option.none, Option.none⟩] Option.none = .ok () := by
  rfl

/-- **C3, amended.**  The v1 validator never rejects a NaN: every range and
ordering check is an `f32` `<`/`>` comparison, false whenever an operand is
NaN.  In particular every non-empty amplitude envelope all of whose numeric
fields are NaN passes validation. -/
theorem claim_C3_amended (breakpoints : List AmplitudeBreakpointF)
    (hne : breakpoints ≠ [])
    (hnan : ∀ bp ∈ breakpoints, bp.time = Option.none ∧
      bp.amplitude = Option.none ∧ bp.emphasis = Option.none) :
    validate_f breakpoints Option.none = .ok () := by
  have key : ∀ (lastTime : F32) (l : List AmplitudeBreakpointF),
      (∀ bp ∈ l, bp.time = Option.none ∧ bp.amplitude = Option.none ∧
        bp.emphasis = Option.none) →
      v1_validate_amplitude_loop_f lastTime l = Option.none := by
    intro lastTime l
    induction l generalizing lastTime with
    | nil => intro _; rfl
    | cons bp rest ih =>
      intro hall
      obtain ⟨ht, ha, he⟩ := hall bp (List.mem_cons_self bp rest)
      have hrest := fun b hb => hall b (List.mem_cons_of_mem bp hb)
      simp only [v1_validate_amplitude_loop_f, ht, ha, he]
      have h1 : f32_lt Option.none (F32.val 0) = false := rfl
      have h2 : f32_gt Option.none (F32.val 1) = false := rfl
      have h3 : f32_gt lastTime Option.none = false := by
        cases lastTime <;> rfl
      rw [h1, h2, h3]
      simp only [Bool.false_or, if_false, Bool.or_self]
      exact ih Option.none hrest
  unfold validate_f
  rw [if_neg (by simpa using hne), key (F32.val 0) breakpoints hnan]

/-- Witness for C3's amended theorem: a two-breakpoint all-NaN envelope. -/
theorem claim_C3_amended_witness :
    validate_f [⟨Option.none, Option.none, Option.none⟩,
      ⟨Option.none, Option.none, Option.none⟩] Option.none = .ok () :=
  claim_C3_amended
    [⟨Option.none, Option.none, Option.none⟩,
      ⟨Option.none, Option.none, Option.none⟩]
    (by simp) (by intro bp hbp; fin_cases hbp <;> exact ⟨rfl, rfl, rfl⟩)

/-! ## Claim C8 — version dispatch in the loader -/


/-- **C8, counterexample.** The loader does not dispatch on the major number
alone: a file with version 0.1.0 — legacy major 0 — whose contents
deserialize and validate under the v0 schema is rejected with
"Unsupported version" instead of being run through the legacy pipeline (only
exactly 0.2.0 is). -/
theorem claim_C8_counterexample :
    v0_validate c8_v0_clip = .ok c8_v0_clip ∧
    from_json ⟨⟨0, 1, 0⟩, .error "not a v1 file", .ok c8_v0_clip⟩ =
      .error "Unsupported version" := by
  constructor
  · norm_num [c8_v0_clip, v0_validate, v0_validate_envelopes, v0_envelope_loop,
      f32_is_nan]
  · norm_num [from_json]

/-- **C8, amended.**  Dispatch is on the version, not the major alone:
(1) a major newer than the current major 1 fails with "Unsupported version";
(2) a file with the current major but a higher minor or patch — whose content
deserializes and validates — loads successfully with the `Partial` support
flag; (3) only the exact legacy version 0.2.0 runs the v0 pipeline. -/
theorem claim_C8_amended :
    (∀ f : HapticFile, 1 < f.version.major →
      from_json f = .error "Unsupported version") ∧
    (∀ (f : HapticFile) (d : DataModel), f.version.major = 1 →
      f.v1_parse = .ok d → d.validate = .ok d → d.version = f.version →
      (0 < f.version.minor ∨ 0 < f.version.patch) →
      latest_from_json f = .ok (.Partial, d)) ∧
    (∀ (f : HapticFile) (v : V0DataModel), f.version = ⟨0, 2, 0⟩ →
      f.v0_parse = .ok v → v0_validate v = .ok v →
      from_json f = .ok (.V0 v)) := by
  refine ⟨?_, ?_, ?_⟩
  · intro f h
    unfold from_json
    rw [if_neg (by omega), if_neg (by rintro ⟨h0, _⟩; omega)]
  · intro f d hmaj hp hv hver hminpatch
    have hfj : from_json f = .ok (.V1 d) := by
      simp only [from_json, hmaj, hp, hv, if_pos]
    have hlt : version_lt d.version CURRENT = false := by
      unfold version_lt CURRENT
      rw [hver, hmaj]
      simp
    have hne : d.version ≠ CURRENT := by
      intro heq
      rw [hver] at heq
      have h1 : f.version.minor = 0 := by
        have := congrArg Version.minor heq
        simpa [CURRENT] using this
      have h2 : f.version.patch = 0 := by
        have := congrArg Version.patch heq
        simpa [CURRENT] using this
      rcases hminpatch with h | h <;> omega
    unfold latest_from_json
    rw [hfj]
    simp only [upgrade_to_latest, hlt, Bool.false_eq_true, if_false, if_neg hne]
  · intro f v hver hp hv
    simp [from_json, hver, hp, hv]


/-- Witness for C8's amended theorem: a 2.0.0 file is rejected; a valid 1.1.0
file loads with `Partial`; a valid 0.2.0 file runs the legacy pipeline. -/
theorem claim_C8_amended_witness :
    from_json ⟨⟨2, 0, 0⟩, .error "e1", .error "e0"⟩ =
      .error "Unsupported version" ∧
    latest_from_json ⟨⟨1, 1, 0⟩, .ok c8_v1_clip, .error "e0"⟩ =
      .ok (.Partial, c8_v1_clip) ∧
    from_json ⟨⟨0, 2, 0⟩, .error "e1",
        .ok ⟨⟨0, 2, 0⟩, ⟨"", 1⟩, ⟨[[⟨0, 1/2⟩]], []⟩⟩⟩ =
      .ok (.V0 ⟨⟨0, 2, 0⟩, ⟨"", 1⟩, ⟨[[⟨0, 1/2⟩]], []⟩⟩) := by
  refine ⟨claim_C8_amended.1 _ (by decide), ?_, ?_⟩
  · exact claim_C8_amended.2.1 _ c8_v1_clip rfl rfl
      (by norm_num [c8_v1_clip, DataModel.validate, DataModel.amplitudes,
        DataModel.frequencies, v1_validate_amplitude_loop])
      rfl (Or.inl (by decide))
  · exact claim_C8_amended.2.2 _ _ rfl rfl
      (by norm_num [v0_validate, v0_validate_envelopes, v0_envelope_loop,
        f32_is_nan])

/-! ## Claim C9 — the waveform backend's `Seek` handling -/

/-- **C9.** With looping disabled and a clip loaded, a `Seek(t)` whose
truncation fails — no amplitude breakpoint at or after `max(t,0)` — makes the
worker call the host `seek_clip` callback with two empty slices instead of
reporting an error; when truncation succeeds the callback receives the
rebuilt, amplitude-scaled waveform of the truncated clip. -/
theorem claim_C9 (clip : DataModel) (m t : ℚ) :
    ((∀ bp ∈ clip.amplitudes, bp.time < max t 0) →
      seek_command (some clip) m false t = some ([], [])) ∧
    (∀ c', clip.truncate_before (max t 0) = .ok c' →
      seek_command (some clip) m false t =
        some ((apply_amplitude_multiplication (convert_clip_to_waveform c') m).timings,
          (apply_amplitude_multiplication (convert_clip_to_waveform c') m).amplitudes)) := by
  constructor
  · intro hall
    have hfind : clip.amplitudes.findIdx?
        (fun breakpoint => decide (max t 0 ≤ breakpoint.time)) = Option.none := by
      rw [List.findIdx?_eq_none_iff]
      intro bp hbp
      simp only [decide_eq_false_iff_not, not_le]
      exact hall bp hbp
    have htrunc : clip.truncate_before (max t 0) =
        .error "No amplitude breakpoint before the specified starting time" := by
      unfold DataModel.truncate_before truncate_amplitude
      rw [hfind]
    simp only [seek_command]
    rw [htrunc]
    rfl
  · intro c' hok
    simp only [seek_command]
    rw [hok]
    rfl


/-- Witness for C9: seeking past the end yields empty slices; seeking to 0
yields the full rebuilt waveform. -/
theorem claim_C9_witness :
    seek_command (some c9_clip) 1 false 1 = some ([], []) ∧
    seek_command (some c9_clip) 1 false 0 =
      some ((apply_amplitude_multiplication (convert_clip_to_waveform c9_clip) 1).timings,
        (apply_amplitude_multiplication (convert_clip_to_waveform c9_clip) 1).amplitudes) := by
  constructor
  · exact (claim_C9 c9_clip 1 1).1 (by
      intro bp hbp
      fin_cases hbp <;> norm_num [c9_clip, DataModel.amplitudes])
  · exact (claim_C9 c9_clip 1 0).2 c9_clip (by
      norm_num [c9_clip, DataModel.truncate_before, truncate_amplitude,
        DataModel.amplitudes, DataModel.frequencies, List.findIdx?])

/-! ## Claim C7 — emphasis output is a valid envelope

The proof follows the emphasizer loop with an invariant: the accumulated
result is sorted with amplitudes in range, and its last time is bounded by
`max t_prev (prev_emphasis.time + emphasis_length + ducking_after_length)`,
where `t_prev` is the time of the last processed input breakpoint. -/

/-- Amplitude ranges are preserved by append. -/
theorem ampsInRange_append (l new : List AmplitudeBreakpoint)
    (hl : AmpsInRange l) (hnew : AmpsInRange new) : AmpsInRange (l ++ new) := by
  intro bp hbp
  rcases List.mem_append.mp hbp with h | h
  exacts [hl bp h, hnew bp h]

/-- `process_normal_breakpoint` either skips the breakpoint or appends it; in
the latter case the breakpoint is not inside the previous emphasis's
emphasis-plus-ducking-after range. -/
theorem process_normal_spec (params : EmphasisParameters)
    (bp : AmplitudeBreakpoint) (prevE nextE : Option AmplitudeBreakpoint)
    (res : List AmplitudeBreakpoint) :
    process_normal_breakpoint params bp prevE nextE res = res ∨
    (process_normal_breakpoint params bp prevE nextE res = res ++ [bp] ∧
      ∀ e, prevE = some e →
        ¬(e.time ≤ bp.time ∧
          bp.time ≤ e.time + params.emphasis_length + params.ducking_after_length)) := by
  simp only [process_normal_breakpoint]
  split_ifs with h
  · exact Or.inl rfl
  · refine Or.inr ⟨rfl, ?_⟩
    intro e he hcon
    apply h
    rw [he]
    simp only [Bool.or_eq_true]
    exact Or.inr (decide_eq_true hcon)

/-- Dropping `i` elements of a list that equals `bp :: rest'` pins down the
`i`-th element and the further drop. -/
theorem drop_cons_facts {α : Type} [Inhabited α] (l : List α) (i : ℕ)
    (x : α) (rest : List α) (h : l.drop i = x :: rest) :
    i < l.length ∧ l.getD i default = x ∧ l.drop (i + 1) = rest := by
  have hi : i < l.length := by
    by_contra hcon
    rw [List.drop_eq_nil_of_le (by omega)] at h
    exact absurd h (by simp)
  have hd := List.drop_eq_getElem_cons hi
  rw [h] at hd
  injection hd with h1 h2
  exact ⟨hi, by rw [List.getD_eq_getElem l default hi, h1], h2.symm⟩

/-- At a breakpoint without emphasis, the "next emphasis" search result is
unchanged by advancing the index. -/
theorem find_emphasis_from_step_none (orig : List AmplitudeBreakpoint) (i : ℕ)
    (bp : AmplitudeBreakpoint) (rest : List AmplitudeBreakpoint)
    (hdrop : orig.drop i = bp :: rest) (hbp : bp.emphasis = none) :
    find_emphasis_from orig i = find_emphasis_from orig (i + 1) := by
  obtain ⟨_, _, hdrop1⟩ := drop_cons_facts orig i bp rest hdrop
  unfold find_emphasis_from
  rw [hdrop, hdrop1, List.find?_cons]
  simp [hbp]

/-- At a breakpoint with emphasis, the "next emphasis" search at its own index
finds exactly that breakpoint. -/
theorem find_emphasis_from_step_some (orig : List AmplitudeBreakpoint) (i : ℕ)
    (bp : AmplitudeBreakpoint) (rest : List AmplitudeBreakpoint)
    (hdrop : orig.drop i = bp :: rest) (e : Emphasis)
    (hbp : bp.emphasis = some e) :
    find_emphasis_from orig i = some bp := by
  unfold find_emphasis_from
  rw [hdrop, List.find?_cons]
  simp [hbp]

/-- The ducking-before area preserves sortedness and amplitude ranges, and
leaves the last time at most `max (last_time res) bp.time`. -/
theorem duck_before_spec (orig : List AmplitudeBreakpoint)
    (params : EmphasisParameters)
    (horig : SortedBy AmplitudeBreakpoint.time orig)
    (htnn : ∀ b ∈ orig, 0 ≤ b.time) (hamp : AmpsInRange orig)
    (hLb : 0 ≤ params.ducking_before_length)
    (hduck0 : 0 ≤ params.ducking_amplitude)
    (hduck1 : params.ducking_amplitude ≤ 1)
    (i : ℕ) (hi : i < orig.length) (bp : AmplitudeBreakpoint)
    (hbp : orig.getD i default = bp)
    (res : List AmplitudeBreakpoint)
    (hres_sorted : SortedBy AmplitudeBreakpoint.time res)
    (hres_amp : AmpsInRange res) :
    SortedBy AmplitudeBreakpoint.time (process_ducking_before_area orig params bp i res) ∧
    AmpsInRange (process_ducking_before_area orig params bp i res) ∧
    last_time (process_ducking_before_area orig params bp i res) ≤
      max (last_time res) bp.time := by
  have hbpmem : bp ∈ orig := by
    rw [← hbp, List.getD_eq_getElem orig default hi]
    exact List.getElem_mem hi
  have hbpt0 : 0 ≤ bp.time := htnn bp hbpmem
  by_cases hguard : bp.time ≤ last_time res
  · have hform : process_ducking_before_area orig params bp i res = res := by
      simp only [process_ducking_before_area, if_pos hguard]
    rw [hform]
    exact ⟨hres_sorted, hres_amp, le_max_left _ _⟩
  · have hlt : last_time res < bp.time := lt_of_not_le hguard
    set s := max (max (bp.time - params.ducking_before_length) 0) (last_time res)
      with hs_def
    have hs_ge : last_time res ≤ s := le_max_right _ _
    have hs_le : s ≤ bp.time :=
      max_le (max_le (by linarith) hbpt0) hlt.le
    -- the two ducking breakpoints at the end, common to both branches
    have htail_sorted : SortedBy AmplitudeBreakpoint.time
        [(⟨s, params.ducking_amplitude, Option.none⟩ : AmplitudeBreakpoint),
         ⟨bp.time, params.ducking_amplitude, Option.none⟩] := by
      simp [SortedBy, hs_le]
    have htail_amp : AmpsInRange
        [(⟨s, params.ducking_amplitude, Option.none⟩ : AmplitudeBreakpoint),
         ⟨bp.time, params.ducking_amplitude, Option.none⟩] := by
      intro b hb
      rcases List.mem_cons.mp hb with h | h
      · subst h; exact ⟨hduck0, hduck1⟩
      · rcases List.mem_cons.mp h with h | h
        · subst h; exact ⟨hduck0, hduck1⟩
        · exact absurd h (by simp)
    match hrpos : rposition
        (fun breakpoint => decide (breakpoint.time < s)) (orig.take i) with
    | some j =>
      obtain ⟨hjlen, hjsat, hjlater⟩ := rposition_spec _ _ j hrpos
      have hjlt : j < i := by
        rw [List.length_take] at hjlen
        omega
      have htake : ∀ k, k < i → (orig.take i).getD k default = orig.getD k default := by
        intro k hk
        rw [List.getD_eq_getElem?_getD, List.getD_eq_getElem?_getD,
          List.getElem?_take, if_pos hk]
      set bb := orig.getD j default with hbb_def
      set bi := orig.getD (j + 1) default with hbi_def
      have hbb_lt : bb.time < s := by
        rw [htake j hjlt] at hjsat
        exact of_decide_eq_true hjsat
      have hj1_le : j + 1 ≤ i := hjlt
      have hj1_len : j + 1 < orig.length := by omega
      have hbi_ge : s ≤ bi.time := by
        rcases lt_or_eq_of_le hj1_le with hcase | hcase
        · have := hjlater (j + 1) (by omega) (by rw [List.length_take]; omega)
          rw [htake (j + 1) hcase] at this
          have := of_decide_eq_false this
          linarith [not_lt.mp this]
        · rw [hbi_def, hcase, hbp]
          exact hs_le
      have hbbmem : bb ∈ orig := by
        rw [hbb_def, List.getD_eq_getElem orig default (by omega)]
        exact List.getElem_mem _
      have hbimem : bi ∈ orig := by
        rw [hbi_def, List.getD_eq_getElem orig default hj1_len]
        exact List.getElem_mem _
      have hinterp := interpolate_range bb.time bi.time bb.amplitude bi.amplitude s
        hbb_lt.le (hbi_ge) (hamp bb hbbmem).1 (hamp bb hbbmem).2
        (hamp bi hbimem).1 (hamp bi hbimem).2
      set bp1 := AmplitudeBreakpoint.from_interpolated_breakpoints bb bi s with hbp1_def
      have hbp1_time : bp1.time = s := rfl
      have hform : process_ducking_before_area orig params bp i res =
          (res ++ [bp1]) ++
            [⟨s, params.ducking_amplitude, Option.none⟩,
             ⟨bp.time, params.ducking_amplitude, Option.none⟩] := by
        simp only [process_ducking_before_area]
        rw [if_neg hguard, hrpos]
      rw [hform]
      have hstep1_sorted : SortedBy AmplitudeBreakpoint.time (res ++ [bp1]) := by
        apply sortedBy_append _ _ hres_sorted (by simp [SortedBy])
        intro b hb
        have : b = bp1 := by simpa using hb
        subst this
        rw [hbp1_time]
        exact hs_ge
      have hlast1 : last_time (res ++ [bp1]) = s := by
        rw [last_time_append _ _ (by simp)]
        simp [last_time, hbp1_time]
      refine ⟨?_, ?_, ?_⟩
      · apply sortedBy_append _ _ hstep1_sorted htail_sorted
        intro b hb
        rw [hlast1]
        rcases List.mem_cons.mp hb with h | h
        · subst h; exact le_refl _
        · rcases List.mem_cons.mp h with h | h
          · subst h; exact hs_le
          · exact absurd h (by simp)
      · apply ampsInRange_append _ _ ?_ htail_amp
        apply ampsInRange_append _ _ hres_amp
        intro b hb
        have : b = bp1 := by simpa using hb
        subst this
        exact hinterp
      · rw [last_time_append _ _ (by simp)]
        simp only [last_time, List.getLast?]
        exact le_max_right _ _
    | none =>
      have hform : process_ducking_before_area orig params bp i res =
          res ++
            [⟨s, params.ducking_amplitude, Option.none⟩,
             ⟨bp.time, params.ducking_amplitude, Option.none⟩] := by
        simp only [process_ducking_before_area]
        rw [if_neg hguard, hrpos]
      rw [hform]
      refine ⟨?_, ?_, ?_⟩
      · apply sortedBy_append _ _ hres_sorted htail_sorted
        intro b hb
        rcases List.mem_cons.mp hb with h | h
        · subst h; exact hs_ge
        · rcases List.mem_cons.mp h with h | h
          · subst h; exact hlt.le
          · exact absurd h (by simp)
      · exact ampsInRange_append _ _ hres_amp htail_amp
      · rw [last_time_append _ _ (by simp)]
        simp only [last_time, List.getLast?]
        exact le_max_right _ _

/-- The emphasis and ducking-after areas preserve sortedness and amplitude
ranges; the last time stays at most
`bp.time + emphasis_length + ducking_after_length`. -/
theorem emph_after_spec (orig : List AmplitudeBreakpoint)
    (params : EmphasisParameters)
    (horig : SortedBy AmplitudeBreakpoint.time orig)
    (htnn : ∀ b ∈ orig, 0 ≤ b.time) (hamp : AmpsInRange orig)
    (hLe : 0 ≤ params.emphasis_length) (hLa : 0 ≤ params.ducking_after_length)
    (hduck0 : 0 ≤ params.ducking_amplitude)
    (hduck1 : params.ducking_amplitude ≤ 1)
    (i : ℕ) (hi : i < orig.length) (bp : AmplitudeBreakpoint)
    (hbp : orig.getD i default = bp)
    (res : List AmplitudeBreakpoint)
    (hres_sorted : SortedBy AmplitudeBreakpoint.time res)
    (hres_amp : AmpsInRange res)
    (hbound : last_time res ≤
      bp.time + params.emphasis_length + params.ducking_after_length) :
    SortedBy AmplitudeBreakpoint.time
      (process_emphasis_and_ducking_after_area orig params bp i res) ∧
    AmpsInRange (process_emphasis_and_ducking_after_area orig params bp i res) ∧
    last_time (process_emphasis_and_ducking_after_area orig params bp i res) ≤
      bp.time + params.emphasis_length + params.ducking_after_length := by
  set lt := last_time res with hlt_def
  set estart := max bp.time lt with hestart_def
  set eend := max (bp.time + params.emphasis_length) lt with heend_def
  by_cases hguard : eend - estart ≤ eps32
  · have hform : process_emphasis_and_ducking_after_area orig params bp i res = res := by
      simp only [process_emphasis_and_ducking_after_area]
      rw [if_pos hguard]
    rw [hform]
    exact ⟨hres_sorted, hres_amp, hbound⟩
  · have heps : (0:ℚ) < eps32 := by norm_num [eps32]
    have hslt : estart < eend := by
      have := lt_of_not_le hguard
      linarith
    have hbpmem : bp ∈ orig := by
      rw [← hbp, List.getD_eq_getElem orig default hi]
      exact List.getElem_mem hi
    have hbpt0 : 0 ≤ bp.time := htnn bp hbpmem
    have heend_eq : eend = bp.time + params.emphasis_length := by
      rcases max_cases (bp.time + params.emphasis_length) lt with ⟨h1, _⟩ | ⟨h1, h2⟩
      · rw [heend_def, h1]
      · exfalso
        have hstart_eq : estart = lt := by
          rw [hestart_def]
          exact max_eq_right (by linarith)
        have : eend = lt := by rw [heend_def, h1]
        rw [hstart_eq, this] at hslt
        exact absurd hslt (lt_irrefl _)
    have hstart_ge : lt ≤ estart := le_max_right _ _
    have heend_ge : lt ≤ eend := le_max_right _ _
    -- the emphasis block
    have hA_sorted : SortedBy AmplitudeBreakpoint.time
        (res ++ [(⟨estart, EMPHASIS_AMPLITUDE, Option.none⟩ : AmplitudeBreakpoint),
          ⟨eend, EMPHASIS_AMPLITUDE, Option.none⟩]) := by
      apply sortedBy_append _ _ hres_sorted (by simp [SortedBy]; exact hslt.le)
      intro b hb
      rcases List.mem_cons.mp hb with h | h
      · subst h; exact hstart_ge
      · rcases List.mem_cons.mp h with h | h
        · subst h; exact heend_ge
        · exact absurd h (by simp)
    have hA_amp : AmpsInRange
        (res ++ [(⟨estart, EMPHASIS_AMPLITUDE, Option.none⟩ : AmplitudeBreakpoint),
          ⟨eend, EMPHASIS_AMPLITUDE, Option.none⟩]) := by
      apply ampsInRange_append _ _ hres_amp
      intro b hb
      rcases List.mem_cons.mp hb with h | h
      · subst h; norm_num [EMPHASIS_AMPLITUDE]
      · rcases List.mem_cons.mp h with h | h
        · subst h; norm_num [EMPHASIS_AMPLITUDE]
        · exact absurd h (by simp)
    have hA_last : last_time
        (res ++ [(⟨estart, EMPHASIS_AMPLITUDE, Option.none⟩ : AmplitudeBreakpoint),
          ⟨eend, EMPHASIS_AMPLITUDE, Option.none⟩]) = eend := by
      rw [last_time_append _ _ (by simp)]
      simp [last_time, List.getLast?]
    by_cases hilast : i = orig.length - 1
    · have hform : process_emphasis_and_ducking_after_area orig params bp i res =
          res ++ [(⟨estart, EMPHASIS_AMPLITUDE, Option.none⟩ : AmplitudeBreakpoint),
            ⟨eend, EMPHASIS_AMPLITUDE, Option.none⟩] := by
        simp only [process_emphasis_and_ducking_after_area]
        rw [if_neg hguard, if_pos hilast]
      rw [hform]
      refine ⟨hA_sorted, hA_amp, ?_⟩
      rw [hA_last, heend_eq]
      linarith
    · -- ducking after is appended
      set dae := eend + params.ducking_after_length with hdae_def
      have hdae_eq : dae = bp.time + params.emphasis_length +
          params.ducking_after_length := by
        rw [hdae_def, heend_eq]
      have hB_sorted : SortedBy AmplitudeBreakpoint.time
          ((res ++ [(⟨estart, EMPHASIS_AMPLITUDE, Option.none⟩ : AmplitudeBreakpoint),
            ⟨eend, EMPHASIS_AMPLITUDE, Option.none⟩]) ++
           [⟨eend, params.ducking_amplitude, Option.none⟩,
            ⟨dae, params.ducking_amplitude, Option.none⟩]) := by
        apply sortedBy_append _ _ hA_sorted
          (by simp [SortedBy]; rw [hdae_def]; linarith)
        intro b hb
        rw [hA_last]
        rcases List.mem_cons.mp hb with h | h
        · subst h; exact le_refl _
        · rcases List.mem_cons.mp h with h | h
          · subst h; rw [hdae_def]; linarith
          · exact absurd h (by simp)
      have hB_amp : AmpsInRange
          ((res ++ [(⟨estart, EMPHASIS_AMPLITUDE, Option.none⟩ : AmplitudeBreakpoint),
            ⟨eend, EMPHASIS_AMPLITUDE, Option.none⟩]) ++
           [⟨eend, params.ducking_amplitude, Option.none⟩,
            ⟨dae, params.ducking_amplitude, Option.none⟩]) := by
        apply ampsInRange_append _ _ hA_amp
        intro b hb
        rcases List.mem_cons.mp hb with h | h
        · subst h; exact ⟨hduck0, hduck1⟩
        · rcases List.mem_cons.mp h with h | h
          · subst h; exact ⟨hduck0, hduck1⟩
          · exact absurd h (by simp)
      have hB_last : last_time
          ((res ++ [(⟨estart, EMPHASIS_AMPLITUDE, Option.none⟩ : AmplitudeBreakpoint),
            ⟨eend, EMPHASIS_AMPLITUDE, Option.none⟩]) ++
           [⟨eend, params.ducking_amplitude, Option.none⟩,
            ⟨dae, params.ducking_amplitude, Option.none⟩]) = dae := by
        rw [last_time_append _ _ (by simp)]
        simp [last_time, List.getLast?]
      have hilt : i < orig.length - 1 := by omega
      match hfind : (orig.drop (i + 1)).findIdx?
          (fun breakpoint => decide (dae < breakpoint.time)) with
      | some k0 =>
        obtain ⟨hk0len, hk0sat, hk0earlier⟩ := findIdx?_spec _ _ k0 hfind
        have hdrop_len : (orig.drop (i + 1)).length = orig.length - (i + 1) := by
          simp
        have hgetD_drop : ∀ k, (orig.drop (i + 1)).getD k default =
            orig.getD (i + 1 + k) default := by
          intro k
          rw [List.getD_eq_getElem?_getD, List.getD_eq_getElem?_getD,
            List.getElem?_drop]
        have hialen : k0 + (i + 1) < orig.length := by omega
        have hbatf_gt : dae < (orig.getD (k0 + (i + 1)) default).time := by
          rw [hgetD_drop k0] at hk0sat
          have h2 := of_decide_eq_true hk0sat
          rw [show k0 + (i + 1) = i + 1 + k0 by omega]
          exact h2
        have hbin_le : (orig.getD (k0 + (i + 1) - 1) default).time ≤ dae := by
          rcases Nat.eq_zero_or_pos k0 with hk0 | hk0
          · subst hk0
            rw [show 0 + (i + 1) - 1 = i by omega, hbp, hdae_eq]
            linarith
          · have h3 := hk0earlier (k0 - 1) (by omega)
            rw [hgetD_drop (k0 - 1)] at h3
            have hle := of_decide_eq_false h3
            rw [show k0 + (i + 1) - 1 = i + 1 + (k0 - 1) by omega]
            exact not_lt.mp hle
        have hbinmem : orig.getD (k0 + (i + 1) - 1) default ∈ orig := by
          rw [List.getD_eq_getElem orig default (by omega)]
          exact List.getElem_mem _
        have hbatfmem : orig.getD (k0 + (i + 1)) default ∈ orig := by
          rw [List.getD_eq_getElem orig default hialen]
          exact List.getElem_mem _
        have hinterp := interpolate_range
          (orig.getD (k0 + (i + 1) - 1) default).time
          (orig.getD (k0 + (i + 1)) default).time
          (orig.getD (k0 + (i + 1) - 1) default).amplitude
          (orig.getD (k0 + (i + 1)) default).amplitude dae hbin_le hbatf_gt.le
          (hamp _ hbinmem).1 (hamp _ hbinmem).2
          (hamp _ hbatfmem).1 (hamp _ hbatfmem).2
        set bp5 := AmplitudeBreakpoint.from_interpolated_breakpoints
          (orig.getD (k0 + (i + 1) - 1) default)
          (orig.getD (k0 + (i + 1)) default) dae with hbp5_def
        have hbp5_time : bp5.time = dae := rfl
        have hform : process_emphasis_and_ducking_after_area orig params bp i res =
            ((res ++ [(⟨estart, EMPHASIS_AMPLITUDE, Option.none⟩ : AmplitudeBreakpoint),
              ⟨eend, EMPHASIS_AMPLITUDE, Option.none⟩]) ++
             [⟨eend, params.ducking_amplitude, Option.none⟩,
              ⟨dae, params.ducking_amplitude, Option.none⟩]) ++ [bp5] := by
          simp only [process_emphasis_and_ducking_after_area]
          rw [if_neg hguard, if_neg hilast, if_pos hilt, hfind]
          rfl
        rw [hform]
        refine ⟨?_, ?_, ?_⟩
        · apply sortedBy_append _ _ hB_sorted (by simp [SortedBy])
          intro b hb
          have : b = bp5 := by simpa using hb
          subst this
          rw [hB_last, hbp5_time]
        · apply ampsInRange_append _ _ hB_amp
          intro b hb
          have : b = bp5 := by simpa using hb
          subst this
          exact hinterp
        · rw [last_time_append _ _ (by simp)]
          rw [show last_time [bp5] = dae from hbp5_time]
          rw [hdae_eq]
      | none =>
        have hform : process_emphasis_and_ducking_after_area orig params bp i res =
            (res ++ [(⟨estart, EMPHASIS_AMPLITUDE, Option.none⟩ : AmplitudeBreakpoint),
              ⟨eend, EMPHASIS_AMPLITUDE, Option.none⟩]) ++
             [⟨eend, params.ducking_amplitude, Option.none⟩,
              ⟨dae, params.ducking_amplitude, Option.none⟩] := by
          simp only [process_emphasis_and_ducking_after_area]
          rw [if_neg hguard, if_neg hilast, if_pos hilt, hfind]
          rfl
        rw [hform]
        refine ⟨hB_sorted, hB_amp, ?_⟩
        rw [hB_last, hdae_eq]

/-- A run of the v1 amplitude validation loop that reports no error implies
sorted times bounded below by the running `last_time` and amplitudes in
`[0, 1]`. -/
theorem v1_amp_loop_sound (l : List AmplitudeBreakpoint) :
    ∀ lastTime : ℚ, v1_validate_amplitude_loop lastTime l = none →
    SortedBy AmplitudeBreakpoint.time l ∧ (∀ b ∈ l, lastTime ≤ b.time) ∧
    AmpsInRange l := by
  induction l with
  | nil =>
    intro lastTime _
    refine ⟨List.Pairwise.nil, ?_, ?_⟩ <;> intro b hb <;> exact absurd hb (by simp)
  | cons bp rest ih =>
    intro lastTime h
    have key : ¬(bp.amplitude < 0 ∨ bp.amplitude > 1) ∧ ¬lastTime > bp.time ∧
        v1_validate_amplitude_loop bp.time rest = none := by
      simp only [v1_validate_amplitude_loop] at h
      by_cases h1 : bp.amplitude < 0 ∨ bp.amplitude > 1
      · rw [if_pos h1] at h
        exact absurd h (by simp)
      · rw [if_neg h1] at h
        by_cases h2 : lastTime > bp.time
        · rw [if_pos h2] at h
          exact absurd h (by simp)
        · rw [if_neg h2] at h
          refine ⟨h1, h2, ?_⟩
          rcases hbe : bp.emphasis with _ | em
          · simpa only [hbe] using h
          · simp only [hbe] at h
            by_cases g1 : em.amplitude > 1 ∨ em.amplitude < 0
            · rw [if_pos g1] at h
              exact absurd h (by simp)
            · rw [if_neg g1] at h
              by_cases g2 : em.frequency > 1 ∨ em.frequency < 0
              · rw [if_pos g2] at h
                exact absurd h (by simp)
              · rw [if_neg g2] at h
                by_cases g3 : em.amplitude < bp.amplitude
                · rw [if_pos g3] at h
                  exact absurd h (by simp)
                · rw [if_neg g3] at h
                  exact h
    obtain ⟨h1, h2, hrest⟩ := key
    have hamp : 0 ≤ bp.amplitude ∧ bp.amplitude ≤ 1 := by
      rw [not_or] at h1
      exact ⟨not_lt.mp h1.1, not_lt.mp h1.2⟩
    have htime : lastTime ≤ bp.time := not_lt.mp h2
    obtain ⟨hs, hge, ha⟩ := ih bp.time hrest
    refine ⟨List.Pairwise.cons hge hs, ?_, ?_⟩
    · intro b hb
      rcases List.mem_cons.mp hb with hb | hb
      · subst hb; exact htime
      · exact le_trans htime (hge b hb)
    · intro b hb
      rcases List.mem_cons.mp hb with hb | hb
      · subst hb; exact hamp
      · exact ha b hb

/-- The invariant proof of `Emphasizer::process`: through the whole loop the
accumulated result stays sorted with amplitudes in `[0, 1]`.  `tp` is a lower
bound for the times of the unprocessed breakpoints that dominates the previous
emphasis's time, and the last pushed time never exceeds
`max tp (prev_emphasis.time + emphasis_length + ducking_after_length)`. -/
theorem emphasizer_loop_spec (orig : List AmplitudeBreakpoint)
    (params : EmphasisParameters)
    (horig : SortedBy AmplitudeBreakpoint.time orig)
    (htnn : ∀ b ∈ orig, 0 ≤ b.time) (hamp : AmpsInRange orig)
    (hLb : 0 ≤ params.ducking_before_length)
    (hLe : 0 ≤ params.emphasis_length) (hLa : 0 ≤ params.ducking_after_length)
    (hduck0 : 0 ≤ params.ducking_amplitude)
    (hduck1 : params.ducking_amplitude ≤ 1) :
    ∀ (l : List AmplitudeBreakpoint) (i : ℕ)
      (prevE nextE : Option AmplitudeBreakpoint)
      (res : List AmplitudeBreakpoint) (tp : ℚ),
      orig.drop i = l →
      nextE = find_emphasis_from orig i →
      (∀ e, prevE = some e → e.time ≤ tp) →
      SortedBy AmplitudeBreakpoint.time res →
      AmpsInRange res →
      (∀ b ∈ l, tp ≤ b.time) →
      (prevE = none → last_time res ≤ tp) →
      (∀ e, prevE = some e →
        last_time res ≤ max tp (e.time + params.emphasis_length +
          params.ducking_after_length)) →
      SortedBy AmplitudeBreakpoint.time
        (emphasizer_loop orig params i l prevE nextE res) ∧
      AmpsInRange (emphasizer_loop orig params i l prevE nextE res) := by
  intro l
  induction l with
  | nil =>
    intro i prevE nextE res tp _ _ _ hrs hra _ _ _
    simpa only [emphasizer_loop] using And.intro hrs hra
  | cons bp rest ih =>
    intro i prevE nextE res tp hdrop hnextE hprevE hrs hra htp hlastN hlastS
    obtain ⟨hi, hbpi, hdrop1⟩ := drop_cons_facts orig i bp rest hdrop
    have hbpmem : bp ∈ orig := by
      rw [← hbpi, List.getD_eq_getElem orig default hi]
      exact List.getElem_mem hi
    have hPdrop : SortedBy AmplitudeBreakpoint.time (orig.drop i) :=
      List.Pairwise.sublist (List.drop_sublist i orig) horig
    rw [hdrop] at hPdrop
    have hbp_rest : ∀ b ∈ rest, bp.time ≤ b.time :=
      (List.pairwise_cons.mp hPdrop).1
    have htpbp : tp ≤ bp.time := htp bp (List.mem_cons_self bp rest)
    rcases hbe : bp.emphasis with _ | em
    · -- a normal breakpoint: the previous/next emphasis are unchanged
      have hnext1 : nextE = find_emphasis_from orig (i + 1) := by
        rw [hnextE]
        exact find_emphasis_from_step_none orig i bp rest hdrop hbe
      have hprevE1 : ∀ e, prevE = some e → e.time ≤ bp.time :=
        fun e he => le_trans (hprevE e he) htpbp
      rcases process_normal_spec params bp prevE nextE res with hcase | ⟨hcase, hskip⟩
      · simp only [emphasizer_loop, hbe]
        rw [hcase]
        exact ih (i + 1) prevE nextE res bp.time hdrop1 hnext1 hprevE1
          hrs hra hbp_rest
          (fun hpe => le_trans (hlastN hpe) htpbp)
          (fun e hpe => le_trans (hlastS e hpe) (max_le_max htpbp (le_refl _)))
      · have hlast_le_bp : last_time res ≤ bp.time := by
          rcases hpe : prevE with _ | e
          · exact le_trans (hlastN hpe) htpbp
          · have h1 : e.time ≤ bp.time := le_trans (hprevE e hpe) htpbp
            have h2 : e.time + params.emphasis_length +
                params.ducking_after_length < bp.time := by
              by_contra hc
              exact hskip e hpe ⟨h1, not_lt.mp hc⟩
            exact le_trans (hlastS e hpe) (max_le htpbp h2.le)
        have hres1_sorted : SortedBy AmplitudeBreakpoint.time (res ++ [bp]) := by
          apply sortedBy_append _ _ hrs (by simp [SortedBy])
          intro b hb
          have hbb : b = bp := by simpa using hb
          subst hbb
          exact hlast_le_bp
        have hres1_amp : AmpsInRange (res ++ [bp]) := by
          apply ampsInRange_append _ _ hra
          intro b hb
          have hbb : b = bp := by simpa using hb
          rw [hbb]
          exact hamp bp hbpmem
        have hlastapp : last_time (res ++ [bp]) = bp.time := by
          rw [last_time_append _ _ (by simp)]
          simp [last_time]
        simp only [emphasizer_loop, hbe]
        rw [hcase]
        exact ih (i + 1) prevE nextE (res ++ [bp]) bp.time hdrop1 hnext1 hprevE1
          hres1_sorted hres1_amp hbp_rest
          (fun _ => le_of_eq hlastapp)
          (fun e _ => by rw [hlastapp]; exact le_max_left _ _)
    · -- an emphasis breakpoint: both areas run, then it becomes the previous
      have hnextE_bp : nextE = some bp := by
        rw [hnextE]
        exact find_emphasis_from_step_some orig i bp rest hdrop em hbe
      obtain ⟨h1s, h1a, h1l⟩ := duck_before_spec orig params horig htnn hamp
        hLb hduck0 hduck1 i hi bp hbpi res hrs hra
      have hboundin : last_time res ≤ bp.time + params.emphasis_length +
          params.ducking_after_length := by
        rcases hpe : prevE with _ | e
        · have := le_trans (hlastN hpe) htpbp
          linarith
        · have h1 : e.time ≤ bp.time := le_trans (hprevE e hpe) htpbp
          refine le_trans (hlastS e hpe) (max_le ?_ ?_) <;> linarith
      have hbound1 : last_time (process_ducking_before_area orig params bp i res) ≤
          bp.time + params.emphasis_length + params.ducking_after_length :=
        le_trans h1l (max_le hboundin (by linarith))
      obtain ⟨h2s, h2a, h2l⟩ := emph_after_spec orig params horig htnn hamp
        hLe hLa hduck0 hduck1 i hi bp hbpi _ h1s h1a hbound1
      have hrec := ih (i + 1) (some bp) (find_emphasis_from orig (i + 1)) _
        bp.time hdrop1 rfl
        (fun e he => by injection he with he'; rw [← he'])
        h2s h2a hbp_rest (fun hc => absurd hc (by simp))
        (fun e he => by
          injection he with he'
          rw [← he']
          exact le_trans h2l (le_max_right _ _))
      simp only [emphasizer_loop, hbe]
      rw [hnextE_bp]
      exact hrec

/-- C7: for every valid input clip (one the v1 validator accepts) and every
emphasis parameter set with nonnegative lengths (`Duration` in the source) and
a ducking amplitude in `[0, 1]` (its default is `0`), the amplitude breakpoint
list returned by `emphasize` has all amplitudes in `[0, 1]` and monotonically
non-decreasing times. -/
theorem claim_C7 (m : DataModel) (params : EmphasisParameters)
    (hvalid : DataModel.validate m = Except.ok m)
    (hLb : 0 ≤ params.ducking_before_length)
    (hLe : 0 ≤ params.emphasis_length) (hLa : 0 ≤ params.ducking_after_length)
    (hduck0 : 0 ≤ params.ducking_amplitude)
    (hduck1 : params.ducking_amplitude ≤ 1) :
    SortedBy AmplitudeBreakpoint.time (emphasize m.amplitudes params) ∧
    AmpsInRange (emphasize m.amplitudes params) := by
  have hloop : v1_validate_amplitude_loop 0 m.amplitudes = none := by
    rcases hl : v1_validate_amplitude_loop 0 m.amplitudes with _ | e
    · rfl
    · rw [DataModel.validate] at hvalid
      by_cases hempty : m.amplitudes.isEmpty = true
      · rw [if_pos hempty] at hvalid
        exact Except.noConfusion hvalid
      · rw [if_neg hempty] at hvalid
        simp only [hl] at hvalid
        exact Except.noConfusion hvalid
  obtain ⟨hsorted, hge, hamps⟩ := v1_amp_loop_sound m.amplitudes 0 hloop
  have hge0 : ∀ b ∈ m.amplitudes, (0:ℚ) ≤ b.time := hge
  rw [emphasize]
  exact emphasizer_loop_spec m.amplitudes params hsorted hge0 hamps
    hLb hLe hLa hduck0 hduck1 m.amplitudes 0 none
    (find_emphasis_from m.amplitudes 0) [] 0 (List.drop_zero _) rfl
    (fun e he => absurd he (by simp)) List.Pairwise.nil
    (fun b hb => absurd hb (by simp)) hge0
    (fun _ => by simp [last_time])
    (fun e he => absurd he (by simp))


theorem claim_C7_witness :
    DataModel.validate c7_clip = Except.ok c7_clip ∧
    (0:ℚ) ≤ EmphasisParameters.default.ducking_before_length ∧
    (0:ℚ) ≤ EmphasisParameters.default.emphasis_length ∧
    (0:ℚ) ≤ EmphasisParameters.default.ducking_after_length ∧
    (0:ℚ) ≤ EmphasisParameters.default.ducking_amplitude ∧
    EmphasisParameters.default.ducking_amplitude ≤ 1 ∧
    (SortedBy AmplitudeBreakpoint.time
      (emphasize c7_clip.amplitudes EmphasisParameters.default) ∧
     AmpsInRange (emphasize c7_clip.amplitudes EmphasisParameters.default)) := by
  have h1 : DataModel.validate c7_clip = Except.ok c7_clip := by
    norm_num [c7_clip, DataModel.validate, DataModel.amplitudes,
      DataModel.frequencies, v1_validate_amplitude_loop, List.isEmpty]
  refine ⟨h1, by norm_num [EmphasisParameters.default],
    by norm_num [EmphasisParameters.default],
    by norm_num [EmphasisParameters.default],
    by norm_num [EmphasisParameters.default],
    by norm_num [EmphasisParameters.default], ?_⟩
  exact claim_C7 c7_clip EmphasisParameters.default h1
    (by norm_num [EmphasisParameters.default])
    (by norm_num [EmphasisParameters.default])
    (by norm_num [EmphasisParameters.default])
    (by norm_num [EmphasisParameters.default])
    (by norm_num [EmphasisParameters.default])

/-- A successful `get?` pins down the index bound and the `getD` value. -/
theorem get?_some_getD {α : Type} [Inhabited α] {xs : List α} {i : ℕ} {bp : α}
    (h : xs.get? i = some bp) : i < xs.length ∧ xs.getD i default = bp := by
  rw [List.get?_eq_getElem?] at h
  have hlt : i < xs.length := by
    by_contra hcon
    rw [List.getElem?_eq_none (by omega)] at h
    exact Option.noConfusion h
  rw [List.getElem?_eq_getElem hlt] at h
  refine ⟨hlt, ?_⟩
  rw [List.getD_eq_getElem xs default hlt]
  exact Option.some.inj h

/-- One halving step of `binary_search_go`. -/
theorem binary_search_go_step {α : Type} [Inhabited α] (f : α → Ordering)
    (xs : List α) (base size : ℕ) (h : 1 < size) :
    binary_search_go f xs base size =
      binary_search_go f xs
        (if f (xs.getD (base + size / 2) default) = .gt then base
         else base + size / 2) (size - size / 2) := by
  rw [binary_search_go, dif_pos h]

/-- The final comparison of `binary_search_go` on a window of size `≤ 1`. -/
theorem binary_search_go_last {α : Type} [Inhabited α] (f : α → Ordering)
    (xs : List α) (base size : ℕ) (h : ¬ 1 < size) :
    binary_search_go f xs base size =
      (if f (xs.getD base default) = .eq then .inl base
       else .inr (base + if f (xs.getD base default) = .lt then 1 else 0)) := by
  rw [binary_search_go, dif_neg h]

/-- In a list sorted by `key`, `getD` is monotone in the index. -/
theorem sortedBy_getD_mono {α : Type} [Inhabited α] (key : α → ℚ)
    (xs : List α) (hs : SortedBy key xs) (i j : ℕ) (hij : i ≤ j)
    (hj : j < xs.length) :
    key (xs.getD i default) ≤ key (xs.getD j default) := by
  rcases eq_or_lt_of_le hij with h | h
  · rw [h]
  · rw [List.getD_eq_getElem xs default (by omega),
      List.getD_eq_getElem xs default hj]
    exact List.pairwise_iff_getElem.mp hs i j (by omega) hj h

/-- The element at the index returned by the `binary_search_by` loop on a
list sorted by `key` has key at least the search key. -/
theorem binary_search_go_ge {α : Type} [Inhabited α] (key : α → ℚ) (s : ℚ)
    (xs : List α) (hs : SortedBy key xs) :
    ∀ size base, base + size ≤ xs.length → 1 ≤ size →
      (∀ j, base + size ≤ j → j < xs.length → s < key (xs.getD j default)) →
      ∀ bp, xs.get? (Sum.elim id id
          (binary_search_go (fun x => compare (key x) s) xs base size)) =
          some bp →
        s ≤ key bp := by
  intro size
  induction size using Nat.strong_induction_on with
  | _ size ih =>
    intro base hlen hpos hright bp hbp
    by_cases hsz : 1 < size
    · rw [binary_search_go_step _ _ _ _ hsz] at hbp
      by_cases hc : (fun x => compare (key x) s)
          (xs.getD (base + size / 2) default) = .gt
      · rw [if_pos hc] at hbp
        have hmid_gt : s < key (xs.getD (base + size / 2) default) :=
          compare_gt_iff_gt.mp hc
        refine ih (size - size / 2) (by omega) base (by omega) (by omega)
          ?_ bp hbp
        intro j hj1 hj2
        rcases le_or_lt (base + size) j with hcase | hcase
        · exact hright j hcase hj2
        · refine lt_of_lt_of_le hmid_gt
            (sortedBy_getD_mono key xs hs _ j (by omega) hj2)
      · rw [if_neg hc] at hbp
        refine ih (size - size / 2) (by omega) (base + size / 2) (by omega)
          (by omega) ?_ bp hbp
        intro j hj1 hj2
        exact hright j (by omega) hj2
    · rw [binary_search_go_last _ _ _ _ hsz] at hbp
      by_cases he : (fun x => compare (key x) s) (xs.getD base default) = .eq
      · rw [if_pos he] at hbp
        simp only [Sum.elim_inl, id_eq] at hbp
        obtain ⟨hl, hbd⟩ := get?_some_getD hbp
        have heq : key (xs.getD base default) = s := compare_eq_iff_eq.mp he
        rw [hbd] at heq
        exact le_of_eq heq.symm
      · rw [if_neg he] at hbp
        by_cases hltc : (fun x => compare (key x) s) (xs.getD base default) = .lt
        · rw [if_pos hltc] at hbp
          simp only [Sum.elim_inr, id_eq] at hbp
          obtain ⟨hl, hbd⟩ := get?_some_getD hbp
          have hj := hright (base + 1) (by omega) hl
          rw [hbd] at hj
          exact hj.le
        · rw [if_neg hltc] at hbp
          simp only [Sum.elim_inr, id_eq, Nat.add_zero] at hbp
          obtain ⟨hl, hbd⟩ := get?_some_getD hbp
          have hgt : compare (key (xs.getD base default)) s = .gt := by
            rcases hcc : compare (key (xs.getD base default)) s
            · exact absurd hcc hltc
            · exact absurd hcc he
            · rfl
          have hj := compare_gt_iff_gt.mp hgt
          rw [hbd] at hj
          exact hj.le

/-- `binary_search_by` on a list sorted by `key`: whatever index is returned
(found or insertion point), the element there — if any — has key `≥ s`. -/
theorem binary_search_by_ge {α : Type} [Inhabited α] (key : α → ℚ) (s : ℚ)
    (xs : List α) (hs : SortedBy key xs) (bp : α)
    (hbp : xs.get? (Sum.elim id id
      (binary_search_by xs (fun x => compare (key x) s))) = some bp) :
    s ≤ key bp := by
  rw [binary_search_by] at hbp
  by_cases h0 : xs.length = 0
  · rw [if_pos h0] at hbp
    simp only [Sum.elim_inr, id_eq] at hbp
    obtain ⟨hl, _⟩ := get?_some_getD hbp
    omega
  · rw [if_neg h0] at hbp
    exact binary_search_go_ge key s xs hs xs.length 0 (by omega) (by omega)
      (fun j hj1 hj2 => absurd hj1 (by omega)) bp hbp

/-- Frequency shift does not change an event's start time. -/
theorem shift_time (e : Event) (s : ℚ) : (e.apply_frequency_shift s).time = e.time := by
  rcases e with ae | fe
  · rcases hem : ae.emphasis with _ | em <;>
      simp [Event.apply_frequency_shift, AmplitudeEvent.apply_frequency_shift,
        Event.time, hem]
  · simp [Event.apply_frequency_shift, FrequencyEvent.apply_frequency_shift,
      Event.time]

/-- Frequency shift does not change an event's duration. -/
theorem shift_duration (e : Event) (s : ℚ) :
    (e.apply_frequency_shift s).duration = e.duration := by
  rcases e with ae | fe
  · rcases hem : ae.emphasis with _ | em <;>
      simp [Event.apply_frequency_shift, AmplitudeEvent.apply_frequency_shift,
        Event.duration, hem]
  · simp [Event.apply_frequency_shift, FrequencyEvent.apply_frequency_shift,
      Event.duration]

/-- Frequency shift does not change an event's kind. -/
theorem shift_isAmplitude (e : Event) (s : ℚ) :
    (e.apply_frequency_shift s).isAmplitude = e.isAmplitude := by
  rcases e with ae | fe <;>
    simp [Event.apply_frequency_shift, Event.isAmplitude]

/-- Frequency shift does not change an event's kind. -/
theorem shift_isFrequency (e : Event) (s : ℚ) :
    (e.apply_frequency_shift s).isFrequency = e.isFrequency := by
  rcases e with ae | fe <;>
    simp [Event.apply_frequency_shift, Event.isFrequency]

/-- Amplitude multiplication does not change an event's start time. -/
theorem mul_time (e : Event) (m : ℚ) :
    (e.apply_amplitude_multiplication m).time = e.time := by
  rcases e with ae | fe <;>
    simp [Event.apply_amplitude_multiplication,
      AmplitudeEvent.apply_amplitude_multiplication, Event.time]

/-- Amplitude multiplication does not change an event's duration. -/
theorem mul_duration (e : Event) (m : ℚ) :
    (e.apply_amplitude_multiplication m).duration = e.duration := by
  rcases e with ae | fe <;>
    simp [Event.apply_amplitude_multiplication,
      AmplitudeEvent.apply_amplitude_multiplication, Event.duration]

/-- Amplitude multiplication does not change an event's kind. -/
theorem mul_isAmplitude (e : Event) (m : ℚ) :
    (e.apply_amplitude_multiplication m).isAmplitude = e.isAmplitude := by
  rcases e with ae | fe <;>
    simp [Event.apply_amplitude_multiplication, Event.isAmplitude]

/-- Amplitude multiplication does not change an event's kind. -/
theorem mul_isFrequency (e : Event) (m : ℚ) :
    (e.apply_amplitude_multiplication m).isFrequency = e.isFrequency := by
  rcases e with ae | fe <;>
    simp [Event.apply_amplitude_multiplication, Event.isFrequency]

/-- The final ramp-down peeked in the `AfterLast` position keeps the
amplitude-stream chain invariant. -/
theorem peek_after_last_spec (env : List AmplitudeBreakpoint) (aend : ℚ)
    (hA : AAfterOK env aend) (e : Event) (pos' : EnvelopePosition)
    (hpeek : peek_after_last env = (some e, pos')) :
    e.isAmplitude = true ∧ aend ≤ e.time ∧ 0 ≤ e.duration ∧
      AmpChain env (e.time + e.duration) pos' := by
  unfold peek_after_last at hpeek
  rcases hlast : env.getLast? with _ | l
  · rw [hlast] at hpeek
    exact absurd hpeek (by simp)
  · rw [hlast] at hpeek
    injection hpeek with h1 h2
    have he : e = Event.from_amplitude_breakpoints l ⟨l.time, 0, Option.none⟩ :=
      (Option.some.inj h1).symm
    simp only [AAfterOK, hlast] at hA
    subst he
    refine ⟨rfl, ?_, ?_, ?_⟩
    · exact hA
    · simp [Event.from_amplitude_breakpoints, Event.duration]
    · rw [← h2]
      simp [AmpChain]

/-- Peeking inside the clip keeps the amplitude-stream chain invariant. -/
theorem peek_in_clip_spec (env : List AmplitudeBreakpoint)
    (hs : SortedBy AmplitudeBreakpoint.time env) (i : ℕ) (aend : ℚ)
    (hIn : AInOK env i aend) (e : Event) (pos' : EnvelopePosition)
    (hpeek : peek_in_clip env i = (some e, pos')) :
    e.isAmplitude = true ∧ aend ≤ e.time ∧ 0 ≤ e.duration ∧
      AmpChain env (e.time + e.duration) pos' := by
  unfold peek_in_clip at hpeek
  rcases hcur : env.get? i with _ | cur
  · rw [hcur] at hpeek
    refine peek_after_last_spec env aend ?_ e pos' hpeek
    have hge : env.length ≤ i := by
      by_contra hcon
      rw [List.get?_eq_getElem?, List.getElem?_eq_getElem (by omega)] at hcur
      exact Option.noConfusion hcur
    exact hIn.2 hge
  · rw [hcur] at hpeek
    obtain ⟨hilt, hcurd⟩ := get?_some_getD hcur
    rcases hnxt : env.get? (i + 1) with _ | nxt
    · rw [hnxt] at hpeek
      refine peek_after_last_spec env aend ?_ e pos' hpeek
      have hi1 : env.length ≤ i + 1 := by
        by_contra hcon
        rw [List.get?_eq_getElem?, List.getElem?_eq_getElem (by omega)] at hnxt
        exact Option.noConfusion hnxt
      have hieq : i = env.length - 1 := by omega
      have hlcur : env.getLast? = some cur := by
        rw [List.getLast?_eq_getElem?, ← List.get?_eq_getElem?, ← hieq, hcur]
      simp only [AAfterOK, hlcur]
      rw [← hcurd]
      exact hIn.1 hilt
    · rw [hnxt] at hpeek
      obtain ⟨hi1lt, hnxtd⟩ := get?_some_getD hnxt
      injection hpeek with h1 h2
      have he : e = Event.from_amplitude_breakpoints cur nxt :=
        (Option.some.inj h1).symm
      subst he
      have hmono : cur.time ≤ nxt.time := by
        rw [← hcurd, ← hnxtd]
        exact sortedBy_getD_mono AmplitudeBreakpoint.time env hs i (i + 1)
          (by omega) hi1lt
      refine ⟨rfl, ?_, ?_, ?_⟩
      · have hty := hIn.1 hilt
        rw [hcurd] at hty
        simp only [Event.from_amplitude_breakpoints, Event.time]
        exact hty
      · simp only [Event.from_amplitude_breakpoints, Event.duration]
        linarith
      · rw [← h2]
        simp only [AmpChain, AInOK, Event.from_amplitude_breakpoints,
          Event.time, Event.duration]
        constructor
        · intro _
          rw [hnxtd]
          linarith
        · intro hcon
          omega

/-- One peek of the amplitude stream preserves the chain invariant. -/
theorem ampChain_step (env : List AmplitudeBreakpoint)
    (hs : SortedBy AmplitudeBreakpoint.time env) (aend : ℚ)
    (pos : EnvelopePosition) (hC : AmpChain env aend pos) (e : Event)
    (pos' : EnvelopePosition)
    (hpeek : peek_amplitude_event env pos = (some e, pos')) :
    e.isAmplitude = true ∧ aend ≤ e.time ∧ 0 ≤ e.duration ∧
      AmpChain env (e.time + e.duration) pos' := by
  cases pos with
  | beforeInitial events idx =>
    cases events with
    | nil => exact peek_in_clip_spec env hs idx aend hC e pos' hpeek
    | cons e0 rest =>
      simp only [peek_amplitude_event] at hpeek
      injection hpeek with h1 h2
      have he : e = e0 := (Option.some.inj h1).symm
      subst he
      rcases e with ae | fe
      · obtain ⟨ha1, ha2, ha3⟩ := hC
        refine ⟨rfl, ha1, ha2, ?_⟩
        rw [← h2]
        exact ha3
      · exact absurd hC (by simp [AmpChain, APend])
  | inClip i => exact peek_in_clip_spec env hs i aend hC e pos' hpeek
  | afterLast => exact peek_after_last_spec env aend hC e pos' hpeek
  | none =>
    simp only [peek_amplitude_event] at hpeek
    exact absurd hpeek (by simp)

/-- Peeking inside the frequency clip keeps the frequency-stream chain
invariant. -/
theorem peek_freq_in_clip_spec (fenv : Option (List FrequencyBreakpoint))
    (hs : ∀ fl, fenv = some fl → SortedBy FrequencyBreakpoint.time fl)
    (i : ℕ) (fend : ℚ) (hIn : FInOK fenv i fend) (e : Event)
    (pos' : EnvelopePosition)
    (hpeek : peek_frequency_in_clip fenv i = (some e, pos')) :
    e.isFrequency = true ∧ fend ≤ e.time ∧ 0 ≤ e.duration ∧
      FreqChain fenv (e.time + e.duration) pos' := by
  unfold peek_frequency_in_clip at hpeek
  rcases hfe : fenv with _ | env
  · simp only [hfe] at hpeek
    exact absurd hpeek (by simp)
  · simp only [hfe] at hpeek
    rcases hcur : env.get? i with _ | cur
    · rw [hcur] at hpeek
      exact absurd hpeek (by simp)
    · rw [hcur] at hpeek
      obtain ⟨hilt, hcurd⟩ := get?_some_getD hcur
      rcases hnxt : env.get? (i + 1) with _ | nxt
      · rw [hnxt] at hpeek
        exact absurd hpeek (by simp)
      · rw [hnxt] at hpeek
        obtain ⟨hi1lt, hnxtd⟩ := get?_some_getD hnxt
        injection hpeek with h1 h2
        have he : e = Event.from_frequency_breakpoints cur nxt :=
          (Option.some.inj h1).symm
        subst he
        simp only [FInOK, hfe] at hIn
        have hmono : cur.time ≤ nxt.time := by
          rw [← hcurd, ← hnxtd]
          exact sortedBy_getD_mono FrequencyBreakpoint.time env (hs env hfe)
            i (i + 1) (by omega) hi1lt
        refine ⟨rfl, ?_, ?_, ?_⟩
        · have hty := hIn hi1lt
          rw [hcurd] at hty
          simp only [Event.from_frequency_breakpoints, Event.time]
          exact hty
        · simp only [Event.from_frequency_breakpoints, Event.duration]
          linarith
        · rw [← h2]
          simp only [FreqChain, FInOK, hfe, Event.from_frequency_breakpoints,
            Event.time, Event.duration]
          intro _
          rw [hnxtd]
          linarith

/-- One peek of the frequency stream preserves the chain invariant. -/
theorem freqChain_step (fenv : Option (List FrequencyBreakpoint))
    (hs : ∀ fl, fenv = some fl → SortedBy FrequencyBreakpoint.time fl)
    (fend : ℚ) (pos : EnvelopePosition) (hC : FreqChain fenv fend pos)
    (e : Event) (pos' : EnvelopePosition)
    (hpeek : peek_frequency_event fenv pos = (some e, pos')) :
    e.isFrequency = true ∧ fend ≤ e.time ∧ 0 ≤ e.duration ∧
      FreqChain fenv (e.time + e.duration) pos' := by
  cases pos with
  | beforeInitial events idx =>
    cases events with
    | nil => exact peek_freq_in_clip_spec fenv hs idx fend hC e pos' hpeek
    | cons e0 rest =>
      simp only [peek_frequency_event] at hpeek
      injection hpeek with h1 h2
      have he : e = e0 := (Option.some.inj h1).symm
      subst he
      rcases e with ae | fe
      · exact absurd hC (by simp [FreqChain, FPend])
      · obtain ⟨hf1, hf2, hf3⟩ := hC
        refine ⟨rfl, hf1, hf2, ?_⟩
        rw [← h2]
        exact hf3
  | inClip i => exact peek_freq_in_clip_spec fenv hs i fend hC e pos' hpeek
  | afterLast =>
    simp only [peek_frequency_event] at hpeek
    exact absurd hpeek (by simp)
  | none =>
    simp only [peek_frequency_event] at hpeek
    exact absurd hpeek (by simp)

/-- The identity match on a `Sum` of two naturals is `Sum.elim id id`. -/
theorem sum_match_elim (r : ℕ ⊕ ℕ) :
    (match r with | .inl index => index | .inr index => index) =
      Sum.elim id id r := by
  rcases r with _ | _ <;> rfl

/-- A seek always lands the amplitude stream in a position satisfying the
chain invariant for some starting bound. -/
theorem seek_amp_chain (env : List AmplitudeBreakpoint)
    (hs : SortedBy AmplitudeBreakpoint.time env) (old : EnvelopePosition)
    (s : ℚ) :
    ∃ b, AmpChain env b (amplitude_position_for_seek env old s) := by
  have hafter : ∃ b, AmpChain env b .afterLast := by
    rcases hl : env.getLast? with _ | l
    · exact ⟨0, by simp [AmpChain, AAfterOK, hl]⟩
    · exact ⟨l.time, by simp [AmpChain, AAfterOK, hl]⟩
  have hnoneP : ∃ b, AmpChain env b .none := ⟨0, by simp [AmpChain]⟩
  simp only [amplitude_position_for_seek, sum_match_elim]
  set I := Sum.elim id id (binary_search_by env
    (fun breakpoint => compare breakpoint.time s)) with hI
  rcases hget : env.get? I with _ | initial
  · simp only [hget]
    cases old
    exacts [hafter, hafter, hafter, hnoneP]
  · simp only [hget]
    have hge : s ≤ initial.time :=
      binary_search_by_ge AmplitudeBreakpoint.time s env hs initial hget
    obtain ⟨hIlt, hId⟩ := get?_some_getD hget
    by_cases h0 : 0 < I
    · rw [if_pos h0]
      rcases hprev : env.get? (I - 1) with _ | prev
      · simp only [hprev]
        refine ⟨s, ?_⟩
        simp only [AmpChain, APend, AInOK, Event.from_amplitude_breakpoints,
          Event.time, Event.duration]
        refine ⟨le_refl s, by linarith, ?_, ?_⟩
        · intro _
          rw [hId]
          linarith
        · intro hcon
          omega
      · simp only [hprev]
        by_cases hgap : MIN_BREAKPOINT_DISTANCE <
            |initial.time - (AmplitudeBreakpoint.from_interpolated_breakpoints
              prev initial s).time|
        · rw [if_pos hgap]
          refine ⟨s, ?_⟩
          simp only [List.singleton_append, AmpChain, APend, AInOK,
            Event.from_amplitude_breakpoints, Event.time, Event.duration,
            AmplitudeBreakpoint.from_interpolated_breakpoints]
          refine ⟨le_refl s, le_refl 0, by linarith, by linarith, ?_, ?_⟩
          · intro _
            rw [hId]
            linarith
          · intro hcon
            omega
        · rw [if_neg hgap]
          refine ⟨s, ?_⟩
          simp only [AmpChain, APend, AInOK, Event.time, Event.duration]
          refine ⟨le_refl s, le_refl 0, ?_, ?_⟩
          · intro _
            rw [hId]
            linarith
          · intro hcon
            omega
    · rw [if_neg h0]
      refine ⟨s, ?_⟩
      simp only [AmpChain, APend, AInOK, Event.from_amplitude_breakpoints,
        Event.time, Event.duration]
      refine ⟨le_refl s, by linarith, ?_, ?_⟩
      · intro _
        rw [hId]
        linarith
      · intro hcon
        omega

/-- A successful `frequency_seek_find` lands the frequency stream in a
position satisfying the chain invariant for some starting bound. -/
theorem freq_seek_find_chain (env : List FrequencyBreakpoint)
    (hsf : SortedBy FrequencyBreakpoint.time env) (s : ℚ)
    (pos : EnvelopePosition) (hfind : frequency_seek_find env s = some pos) :
    ∃ b, FreqChain (some env) b pos := by
  simp only [frequency_seek_find, sum_match_elim] at hfind
  set I := Sum.elim id id (binary_search_by env
    (fun breakpoint => compare breakpoint.time s)) with hI
  rcases hget : env.get? I with _ | initial
  · simp only [hget] at hfind
    exact Option.noConfusion hfind
  · simp only [hget] at hfind
    have hge : s ≤ initial.time :=
      binary_search_by_ge FrequencyBreakpoint.time s env hsf initial hget
    obtain ⟨hIlt, hId⟩ := get?_some_getD hget
    have hpos := (Option.some.inj hfind).symm
    subst hpos
    by_cases h0 : 0 < I
    · rw [if_pos h0]
      rcases hprev : env.get? (I - 1) with _ | prev
      · simp only [hprev]
        refine ⟨s, ?_⟩
        simp only [FreqChain, FPend, FInOK, Event.from_frequency_breakpoints,
          Event.time, Event.duration]
        refine ⟨le_refl s, by linarith, ?_⟩
        intro _
        rw [hId]
        linarith
      · simp only [hprev]
        by_cases hgap : MIN_BREAKPOINT_DISTANCE <
            |initial.time - (FrequencyBreakpoint.from_interpolated_breakpoints
              prev initial s).time|
        · rw [if_pos hgap]
          refine ⟨s, ?_⟩
          simp only [List.singleton_append, FreqChain, FPend, FInOK,
            Event.from_frequency_breakpoints, Event.time, Event.duration,
            FrequencyBreakpoint.from_interpolated_breakpoints]
          refine ⟨le_refl s, le_refl 0, by linarith, by linarith, ?_⟩
          intro _
          rw [hId]
          linarith
        · rw [if_neg hgap]
          refine ⟨s, ?_⟩
          simp only [FreqChain, FPend, FInOK, Event.time, Event.duration]
          refine ⟨le_refl s, le_refl 0, ?_⟩
          intro _
          rw [hId]
          linarith
    · rw [if_neg h0]
      refine ⟨s, ?_⟩
      simp only [FreqChain, FPend, FInOK, Event.from_frequency_breakpoints,
        Event.time, Event.duration]
      refine ⟨le_refl s, by linarith, ?_⟩
      intro _
      rw [hId]
      linarith

/-- A seek always lands the frequency stream in a position satisfying the
chain invariant for some starting bound. -/
theorem seek_freq_chain (fenv : Option (List FrequencyBreakpoint))
    (hs : ∀ fl, fenv = some fl → SortedBy FrequencyBreakpoint.time fl)
    (apos : EnvelopePosition) (s : ℚ) :
    ∃ b, FreqChain fenv b (frequency_position_for_seek fenv apos s) := by
  cases apos
  case afterLast => exact ⟨0, trivial⟩
  case none => exact ⟨0, trivial⟩
  all_goals (
    rcases hfe : fenv with _ | env
    · exact ⟨0, trivial⟩
    · (suffices h : ∃ b, FreqChain (some env) b
          (match frequency_seek_find env s with
           | some position => position
           | Option.none =>
             match env.getLast? with
             | some last_breakpoint =>
               (frequency_seek_find env last_breakpoint.time).getD
                 EnvelopePosition.none
             | Option.none => EnvelopePosition.none) by exact h)
      rcases hfind : frequency_seek_find env s with _ | pos
      · simp only [hfind]
        rcases hl : env.getLast? with _ | l
        · simp only [hl]
          exact ⟨0, trivial⟩
        · simp only [hl]
          rcases hfind2 : frequency_seek_find env l.time with _ | pos2
          · simp only [hfind2, Option.getD_none]
            exact ⟨0, trivial⟩
          · simp only [hfind2, Option.getD_some]
            exact freq_seek_find_chain env (hs env hfe) l.time pos2 hfind2
      · simp only [hfind]
        exact freq_seek_find_chain env (hs env hfe) s pos hfind)

/-- An event's two kind flags are opposite. -/
theorem isFrequency_eq_not_isAmplitude (e : Event) :
    e.isFrequency = !e.isAmplitude := by
  cases e <;> rfl

/-- `peek_after_last` always moves the position to `None`. -/
theorem peek_after_last_pos (env : List AmplitudeBreakpoint) (oe : Option Event)
    (pos' : EnvelopePosition) (h : peek_after_last env = (oe, pos')) :
    pos' = .none := by
  unfold peek_after_last at h
  rcases hl : env.getLast? with _ | l <;> rw [hl] at h <;>
    exact (Prod.mk.injEq _ _ _ _ ▸ h).2.symm

/-- `peek_event` at an amplitude position that is not at the end of the clip:
the frequency envelope is consulted. -/
theorem peek_event_active (p : HapticEventProvider)
    (apos fpos : EnvelopePosition) (hact : ampActive apos) :
    p.peek_event apos fpos =
      (match (peek_amplitude_event p.clip.amplitudes apos).1,
          (peek_frequency_event p.clip.frequencies fpos).1 with
       | Option.none, Option.none =>
         { event := Option.none, new_amplitude_position := .none,
           new_frequency_position := .none }
       | some _, Option.none =>
         { event := (peek_amplitude_event p.clip.amplitudes apos).1.map
             (fun event => (event.apply_amplitude_multiplication
               p.amplitude_multiplication).apply_frequency_shift
               p.frequency_shift)
           new_amplitude_position := (peek_amplitude_event p.clip.amplitudes apos).2
           new_frequency_position := fpos }
       | Option.none, some _ =>
         { event := (peek_frequency_event p.clip.frequencies fpos).1.map
             (fun event => event.apply_frequency_shift p.frequency_shift)
           new_amplitude_position := apos
           new_frequency_position := (peek_frequency_event p.clip.frequencies fpos).2 }
       | some amplitude_event, some frequency_event =>
         if amplitude_event.time ≤ frequency_event.time then
           { event := (peek_amplitude_event p.clip.amplitudes apos).1.map
               (fun event => (event.apply_amplitude_multiplication
                 p.amplitude_multiplication).apply_frequency_shift
                 p.frequency_shift)
             new_amplitude_position := (peek_amplitude_event p.clip.amplitudes apos).2
             new_frequency_position := fpos }
         else
           { event := (peek_frequency_event p.clip.frequencies fpos).1.map
               (fun event => event.apply_frequency_shift p.frequency_shift)
             new_amplitude_position := apos
             new_frequency_position := (peek_frequency_event p.clip.frequencies fpos).2 }) := by
  cases apos
  case beforeInitial events idx => rfl
  case inClip i => rfl
  case afterLast => exact absurd hact (by simp [ampActive])
  case none => exact absurd hact (by simp [ampActive])

/-- The invariant proof of the event stream: from any provider state whose two
envelope positions satisfy the chain invariants, the collected events have
non-decreasing start times, and within each envelope consecutive events are
chained end-to-start. -/
theorem collect_events_spec :
    ∀ (k : ℕ) (p : HapticEventProvider) (t0 aend fend : ℚ),
      SortedBy AmplitudeBreakpoint.time p.clip.amplitudes →
      (∀ fl, p.clip.frequencies = some fl →
        SortedBy FrequencyBreakpoint.time fl) →
      AmpChain p.clip.amplitudes aend p.amplitude_position →
      FreqChain p.clip.frequencies fend p.frequency_position →
      (∀ e pos', peek_amplitude_event p.clip.amplitudes p.amplitude_position =
        (some e, pos') → t0 ≤ e.time) →
      (ampActive p.amplitude_position →
        ∀ e pos', peek_frequency_event p.clip.frequencies p.frequency_position =
          (some e, pos') → t0 ≤ e.time) →
      EventsMono t0 (collect_events p k) ∧
      EventsNonOverlap aend ((collect_events p k).filter Event.isAmplitude) ∧
      EventsNonOverlap fend ((collect_events p k).filter Event.isFrequency) := by
  intro k
  induction k with
  | zero =>
    intro p t0 aend fend _ _ _ _ _ _
    exact ⟨trivial, trivial, trivial⟩
  | succ k ih =>
    intro p t0 aend fend hsa hsf hAC hFC hAH hFH
    by_cases hact : ampActive p.amplitude_position
    · -- the frequency envelope is consulted
      rcases hpa : peek_amplitude_event p.clip.amplitudes p.amplitude_position
        with ⟨oa, posA'⟩
      rcases hpf : peek_frequency_event p.clip.frequencies p.frequency_position
        with ⟨og, posF'⟩
      have hpe := peek_event_active p p.amplitude_position p.frequency_position
        hact
      rw [hpa, hpf] at hpe
      dsimp only at hpe
      rcases oa with _ | a <;> rcases og with _ | g <;> dsimp only at hpe
      · -- no event from either envelope: the stream ends
        have hcoll : collect_events p (k + 1) = [] := by
          simp only [collect_events, HapticEventProvider.get_next_event, hpe]
        rw [hcoll]
        exact ⟨trivial, trivial, trivial⟩
      · -- only a frequency event
        obtain ⟨hkg, htg, hdg, hCg⟩ := freqChain_step p.clip.frequencies hsf
          fend p.frequency_position hFC g posF' hpf
        have hcoll : collect_events p (k + 1) =
            (g.apply_frequency_shift p.frequency_shift) ::
              collect_events
                { p with amplitude_position := p.amplitude_position,
                         frequency_position := posF' } k := by
          simp only [collect_events, HapticEventProvider.get_next_event, hpe,
            Option.map_some']
        have hih := ih
          { p with amplitude_position := p.amplitude_position,
                   frequency_position := posF' }
          g.time aend (g.time + g.duration)
          hsa hsf hAC hCg
          (fun e2 pos2 h2 => by
            rw [hpa] at h2
            exact absurd h2 (by simp))
          (fun _ e2 pos2 h2 => by
            have hstep := freqChain_step p.clip.frequencies hsf
              (g.time + g.duration) posF' hCg e2 pos2 h2
            linarith [hstep.2.1])
        have hevt : (g.apply_frequency_shift p.frequency_shift).time = g.time :=
          shift_time g p.frequency_shift
        have hevd : (g.apply_frequency_shift p.frequency_shift).duration =
            g.duration := shift_duration g p.frequency_shift
        have hevk : (g.apply_frequency_shift p.frequency_shift).isFrequency =
            true := by rw [shift_isFrequency]; exact hkg
        have hevka : (g.apply_frequency_shift p.frequency_shift).isAmplitude =
            false := by
          have := isFrequency_eq_not_isAmplitude
            (g.apply_frequency_shift p.frequency_shift)
          rw [hevk] at this
          cases hcc : (g.apply_frequency_shift p.frequency_shift).isAmplitude
          · rfl
          · rw [hcc] at this
            exact absurd this.symm (by simp)
        rw [hcoll]
        refine ⟨⟨?_, ?_⟩, ?_, ?_⟩
        · rw [hevt]
          exact hFH hact g posF' hpf
        · rw [hevt]
          exact hih.1
        · simp only [List.filter_cons, hevka, Bool.false_eq_true, if_false]
          exact hih.2.1
        · simp only [List.filter_cons, hevk, if_true]
          refine ⟨?_, ?_⟩
          · rw [hevt]
            exact htg
          · rw [hevt, hevd]
            exact hih.2.2
      · -- only an amplitude event
        obtain ⟨hka, hta, hda, hCa⟩ := ampChain_step p.clip.amplitudes hsa
          aend p.amplitude_position hAC a posA' hpa
        have hcoll : collect_events p (k + 1) =
            ((a.apply_amplitude_multiplication
              p.amplitude_multiplication).apply_frequency_shift
                p.frequency_shift) ::
              collect_events
                { p with amplitude_position := posA',
                         frequency_position := p.frequency_position } k := by
          simp only [collect_events, HapticEventProvider.get_next_event, hpe,
            Option.map_some']
        have hih := ih
          { p with amplitude_position := posA',
                   frequency_position := p.frequency_position }
          a.time (a.time + a.duration) fend hsa hsf hCa hFC
          (fun e2 pos2 h2 => by
            have hstep := ampChain_step p.clip.amplitudes hsa
              (a.time + a.duration) posA' hCa e2 pos2 h2
            linarith [hstep.2.1])
          (fun _ e2 pos2 h2 => by
            rw [hpf] at h2
            exact absurd h2 (by simp))
        have hevt : ((a.apply_amplitude_multiplication
            p.amplitude_multiplication).apply_frequency_shift
              p.frequency_shift).time = a.time := by
          rw [shift_time, mul_time]
        have hevd : ((a.apply_amplitude_multiplication
            p.amplitude_multiplication).apply_frequency_shift
              p.frequency_shift).duration = a.duration := by
          rw [shift_duration, mul_duration]
        have hevk : ((a.apply_amplitude_multiplication
            p.amplitude_multiplication).apply_frequency_shift
              p.frequency_shift).isAmplitude = true := by
          rw [shift_isAmplitude, mul_isAmplitude]; exact hka
        have hevkf : ((a.apply_amplitude_multiplication
            p.amplitude_multiplication).apply_frequency_shift
              p.frequency_shift).isFrequency = false := by
          rw [isFrequency_eq_not_isAmplitude, hevk]
          rfl
        rw [hcoll]
        refine ⟨⟨?_, ?_⟩, ?_, ?_⟩
        · rw [hevt]
          exact hAH a posA' hpa
        · rw [hevt]
          exact hih.1
        · simp only [List.filter_cons, hevk, if_true]
          refine ⟨?_, ?_⟩
          · rw [hevt]
            exact hta
          · rw [hevt, hevd]
            exact hih.2.1
        · simp only [List.filter_cons, hevkf, Bool.false_eq_true, if_false]
          exact hih.2.2
      · -- both envelopes peeked an event: the earlier one is emitted
        obtain ⟨hka, hta, hda, hCa⟩ := ampChain_step p.clip.amplitudes hsa
          aend p.amplitude_position hAC a posA' hpa
        obtain ⟨hkg, htg, hdg, hCg⟩ := freqChain_step p.clip.frequencies hsf
          fend p.frequency_position hFC g posF' hpf
        by_cases htie : a.time ≤ g.time
        · rw [if_pos htie] at hpe
          have hcoll : collect_events p (k + 1) =
              ((a.apply_amplitude_multiplication
                p.amplitude_multiplication).apply_frequency_shift
                  p.frequency_shift) ::
                collect_events
                  { p with amplitude_position := posA',
                           frequency_position := p.frequency_position } k := by
            simp only [collect_events, HapticEventProvider.get_next_event, hpe,
              Option.map_some']
          have hih := ih
            { p with amplitude_position := posA',
                     frequency_position := p.frequency_position }
            a.time (a.time + a.duration) fend hsa hsf hCa hFC
            (fun e2 pos2 h2 => by
              have hstep := ampChain_step p.clip.amplitudes hsa
                (a.time + a.duration) posA' hCa e2 pos2 h2
              linarith [hstep.2.1])
            (fun _ e2 pos2 h2 => by
              rw [hpf] at h2
              injection h2 with h21 h22
              have hge : e2 = g := (Option.some.inj h21).symm
              rw [hge]
              exact htie)
          have hevt : ((a.apply_amplitude_multiplication
              p.amplitude_multiplication).apply_frequency_shift
                p.frequency_shift).time = a.time := by
            rw [shift_time, mul_time]
          have hevd : ((a.apply_amplitude_multiplication
              p.amplitude_multiplication).apply_frequency_shift
                p.frequency_shift).duration = a.duration := by
            rw [shift_duration, mul_duration]
          have hevk : ((a.apply_amplitude_multiplication
              p.amplitude_multiplication).apply_frequency_shift
                p.frequency_shift).isAmplitude = true := by
            rw [shift_isAmplitude, mul_isAmplitude]; exact hka
          have hevkf : ((a.apply_amplitude_multiplication
              p.amplitude_multiplication).apply_frequency_shift
                p.frequency_shift).isFrequency = false := by
            rw [isFrequency_eq_not_isAmplitude, hevk]
            rfl
          rw [hcoll]
          refine ⟨⟨?_, ?_⟩, ?_, ?_⟩
          · rw [hevt]
            exact hAH a posA' hpa
          · rw [hevt]
            exact hih.1
          · simp only [List.filter_cons, hevk, if_true]
            refine ⟨?_, ?_⟩
            · rw [hevt]
              exact hta
            · rw [hevt, hevd]
              exact hih.2.1
          · simp only [List.filter_cons, hevkf, Bool.false_eq_true, if_false]
            exact hih.2.2
        · rw [if_neg htie] at hpe
          have hlt : g.time < a.time := lt_of_not_le htie
          have hcoll : collect_events p (k + 1) =
              (g.apply_frequency_shift p.frequency_shift) ::
                collect_events
                  { p with amplitude_position := p.amplitude_position,
                           frequency_position := posF' } k := by
            simp only [collect_events, HapticEventProvider.get_next_event, hpe,
              Option.map_some']
          have hih := ih
            { p with amplitude_position := p.amplitude_position,
                     frequency_position := posF' }
            g.time aend (g.time + g.duration)
            hsa hsf hAC hCg
            (fun e2 pos2 h2 => by
              rw [hpa] at h2
              injection h2 with h21 h22
              have hae : e2 = a := (Option.some.inj h21).symm
              rw [hae]
              exact hlt.le)
            (fun _ e2 pos2 h2 => by
              have hstep := freqChain_step p.clip.frequencies hsf
                (g.time + g.duration) posF' hCg e2 pos2 h2
              linarith [hstep.2.1])
          have hevt : (g.apply_frequency_shift p.frequency_shift).time =
              g.time := shift_time g p.frequency_shift
          have hevd : (g.apply_frequency_shift p.frequency_shift).duration =
              g.duration := shift_duration g p.frequency_shift
          have hevk : (g.apply_frequency_shift p.frequency_shift).isFrequency =
              true := by rw [shift_isFrequency]; exact hkg
          have hevka : (g.apply_frequency_shift p.frequency_shift).isAmplitude =
              false := by
            have hq := isFrequency_eq_not_isAmplitude
              (g.apply_frequency_shift p.frequency_shift)
            rw [hevk] at hq
            cases hcc : (g.apply_frequency_shift p.frequency_shift).isAmplitude
            · rfl
            · rw [hcc] at hq
              exact absurd hq.symm (by simp)
          rw [hcoll]
          refine ⟨⟨?_, ?_⟩, ?_, ?_⟩
          · rw [hevt]
            exact hFH hact g posF' hpf
          · rw [hevt]
            exact hih.1
          · simp only [List.filter_cons, hevka, Bool.false_eq_true, if_false]
            exact hih.2.1
          · simp only [List.filter_cons, hevk, if_true]
            refine ⟨?_, ?_⟩
            · rw [hevt]
              exact htg
            · rw [hevt, hevd]
              exact hih.2.2
    · -- the amplitude envelope has ended: the frequency side is forced empty
      rcases hap : p.amplitude_position with ⟨evA, idxA⟩ | iA | _ | _
      · exact absurd (by rw [hap]; trivial) hact
      · exact absurd (by rw [hap]; trivial) hact
      · -- AfterLast: at most the final ramp-down is emitted
        rcases hpal : peek_after_last p.clip.amplitudes with ⟨oe, pos'⟩
        rcases oe with _ | a
        · have hcoll : collect_events p (k + 1) = [] := by
            simp only [collect_events, HapticEventProvider.get_next_event,
              HapticEventProvider.peek_event, hap, peek_amplitude_event, hpal]
          rw [hcoll]
          exact ⟨trivial, trivial, trivial⟩
        · have hposn : pos' = .none :=
            peek_after_last_pos p.clip.amplitudes (some a) pos' hpal
          have hAC' : AAfterOK p.clip.amplitudes aend := by
            rw [hap] at hAC
            exact hAC
          obtain ⟨hka, hta, hda, hCa⟩ := peek_after_last_spec
            p.clip.amplitudes aend hAC' a pos' hpal
          have hcoll : collect_events p (k + 1) =
              ((a.apply_amplitude_multiplication
                p.amplitude_multiplication).apply_frequency_shift
                  p.frequency_shift) ::
                collect_events
                  { p with amplitude_position := pos',
                           frequency_position := p.frequency_position } k := by
            simp only [collect_events, HapticEventProvider.get_next_event,
              HapticEventProvider.peek_event, hap, peek_amplitude_event, hpal,
              Option.map_some']
          have hih := ih
            { p with amplitude_position := pos',
                     frequency_position := p.frequency_position }
            a.time (a.time + a.duration) fend hsa hsf
            (by rw [hposn]; trivial) hFC
            (fun e2 pos2 h2 => by
              rw [hposn] at h2
              simp only [peek_amplitude_event] at h2
              exact absurd h2 (by simp))
            (fun hact2 _ _ _ => by
              rw [hposn] at hact2
              exact absurd hact2 (by simp [ampActive]))
          have hevt : ((a.apply_amplitude_multiplication
              p.amplitude_multiplication).apply_frequency_shift
                p.frequency_shift).time = a.time := by
            rw [shift_time, mul_time]
          have hevd : ((a.apply_amplitude_multiplication
              p.amplitude_multiplication).apply_frequency_shift
                p.frequency_shift).duration = a.duration := by
            rw [shift_duration, mul_duration]
          have hevk : ((a.apply_amplitude_multiplication
              p.amplitude_multiplication).apply_frequency_shift
                p.frequency_shift).isAmplitude = true := by
            rw [shift_isAmplitude, mul_isAmplitude]; exact hka
          have hevkf : ((a.apply_amplitude_multiplication
              p.amplitude_multiplication).apply_frequency_shift
                p.frequency_shift).isFrequency = false := by
            rw [isFrequency_eq_not_isAmplitude, hevk]
            rfl
          rw [hcoll]
          refine ⟨⟨?_, ?_⟩, ?_, ?_⟩
          · rw [hevt]
            refine hAH a pos' ?_
            rw [hap]
            exact hpal
          · rw [hevt]
            exact hih.1
          · simp only [List.filter_cons, hevk, if_true]
            refine ⟨?_, ?_⟩
            · rw [hevt]
              exact hta
            · rw [hevt, hevd]
              exact hih.2.1
          · simp only [List.filter_cons, hevkf, Bool.false_eq_true, if_false]
            exact hih.2.2
      · -- position None: nothing is ever emitted again
        have hcoll : collect_events p (k + 1) = [] := by
          simp only [collect_events, HapticEventProvider.get_next_event,
            HapticEventProvider.peek_event, hap, peek_amplitude_event]
        rw [hcoll]
        exact ⟨trivial, trivial, trivial⟩

/-- A run of the v1 frequency validation loop that reports no error implies
sorted times bounded below by the running `last_time`. -/
theorem v1_freq_loop_sound (l : List FrequencyBreakpoint) :
    ∀ lastTime : ℚ, v1_validate_frequency_loop lastTime l = none →
    SortedBy FrequencyBreakpoint.time l ∧ (∀ b ∈ l, lastTime ≤ b.time) := by
  induction l with
  | nil =>
    intro lastTime _
    exact ⟨List.Pairwise.nil, fun b hb => absurd hb (by simp)⟩
  | cons bp rest ih =>
    intro lastTime h
    simp only [v1_validate_frequency_loop] at h
    by_cases h1 : bp.frequency < 0 ∨ bp.frequency > 1
    · rw [if_pos h1] at h
      exact absurd h (by simp)
    · rw [if_neg h1] at h
      by_cases h2 : lastTime > bp.time
      · rw [if_pos h2] at h
        exact absurd h (by simp)
      · rw [if_neg h2] at h
        have htime : lastTime ≤ bp.time := not_lt.mp h2
        obtain ⟨hs, hge⟩ := ih bp.time h
        refine ⟨List.Pairwise.cons hge hs, ?_⟩
        intro b hb
        rcases List.mem_cons.mp hb with hb | hb
        · rw [hb]; exact htime
        · exact le_trans htime (hge b hb)

/-- A clip the v1 validator accepts has a sorted frequency envelope. -/
theorem validate_frequencies_sound (m : DataModel)
    (hvalid : DataModel.validate m = Except.ok m) :
    ∀ fl, m.frequencies = some fl → SortedBy FrequencyBreakpoint.time fl := by
  intro fl hfl
  rw [DataModel.validate] at hvalid
  by_cases hempty : m.amplitudes.isEmpty = true
  · rw [if_pos hempty] at hvalid
    exact Except.noConfusion hvalid
  · rw [if_neg hempty] at hvalid
    rcases hal : v1_validate_amplitude_loop 0 m.amplitudes with _ | e
    · simp only [hal, hfl] at hvalid
      rcases hfl2 : v1_validate_frequency_loop 0 fl with _ | e2
      · exact (v1_freq_loop_sound fl 0 hfl2).1
      · simp only [hfl2] at hvalid
        exact Except.noConfusion hvalid
    · simp only [hal] at hvalid
      exact Except.noConfusion hvalid

/-- The bounded monotonicity predicate implies the chain of non-decreasing
start times. -/
theorem eventsMono_chain (l : List Event) :
    ∀ b, EventsMono b l → List.Chain' (fun x y => x.time ≤ y.time) l := by
  induction l with
  | nil => intro b _; exact List.chain'_nil
  | cons e rest ih =>
    intro b h
    obtain ⟨h1, h2⟩ := h
    rw [List.chain'_cons']
    refine ⟨?_, ih e.time h2⟩
    intro y hy
    rcases rest with _ | ⟨e2, rest2⟩
    · exact absurd hy (by simp)
    · have hye : e2 = y := by simpa using hy
      rw [← hye]
      exact h2.1

/-- The bounded non-overlap predicate implies the end-to-start chain. -/
theorem eventsNonOverlap_chain (l : List Event) :
    ∀ b, EventsNonOverlap b l →
      List.Chain' (fun x y => x.time + x.duration ≤ y.time) l := by
  induction l with
  | nil => intro b _; exact List.chain'_nil
  | cons e rest ih =>
    intro b h
    obtain ⟨h1, h2⟩ := h
    rw [List.chain'_cons']
    refine ⟨?_, ih (e.time + e.duration) h2⟩
    intro y hy
    rcases rest with _ | ⟨e2, rest2⟩
    · exact absurd hy (by simp)
    · have hye : e2 = y := by simpa using hy
      rw [← hye]
      exact h2.1

/-- C5 (amended): for a valid clip and any seek offset `t ≥ 0`, the event
stream has non-decreasing start times, and consecutive events of the SAME
envelope never overlap (`time + duration ≤` next start).  The cross-envelope
non-overlap clause of the original claim is false: see the counterexample. -/
theorem claim_C5_amended (m : DataModel) (t : ℚ) (k : ℕ)
    (hvalid : DataModel.validate m = Except.ok m) (ht : 0 ≤ t) :
    List.Chain' (fun x y => x.time ≤ y.time)
      (collect_events ((HapticEventProvider.new m).seek t) k) ∧
    List.Chain' (fun x y => x.time + x.duration ≤ y.time)
      ((collect_events ((HapticEventProvider.new m).seek t) k).filter
        Event.isAmplitude) ∧
    List.Chain' (fun x y => x.time + x.duration ≤ y.time)
      ((collect_events ((HapticEventProvider.new m).seek t) k).filter
        Event.isFrequency) := by
  set p := (HapticEventProvider.new m).seek t with hp
  have hclip : p.clip = m := rfl
  have hloop : v1_validate_amplitude_loop 0 m.amplitudes = none := by
    rw [DataModel.validate] at hvalid
    by_cases hempty : m.amplitudes.isEmpty = true
    · rw [if_pos hempty] at hvalid
      exact Except.noConfusion hvalid
    · rw [if_neg hempty] at hvalid
      rcases hal : v1_validate_amplitude_loop 0 m.amplitudes with _ | e
      · rfl
      · simp only [hal] at hvalid
        exact Except.noConfusion hvalid
  have hsa : SortedBy AmplitudeBreakpoint.time p.clip.amplitudes := by
    rw [hclip]
    exact (v1_amp_loop_sound m.amplitudes 0 hloop).1
  have hsf : ∀ fl, p.clip.frequencies = some fl →
      SortedBy FrequencyBreakpoint.time fl := by
    rw [hclip]
    exact validate_frequencies_sound m hvalid
  have hap : p.amplitude_position = amplitude_position_for_seek
      p.clip.amplitudes ((HapticEventProvider.new m).amplitude_position)
      (max t 0) := rfl
  have hfp : p.frequency_position = frequency_position_for_seek
      p.clip.frequencies p.amplitude_position (max t 0) := rfl
  obtain ⟨aend, hAC⟩ : ∃ b, AmpChain p.clip.amplitudes b p.amplitude_position := by
    rw [hap]
    exact seek_amp_chain p.clip.amplitudes hsa _ (max t 0)
  obtain ⟨fend, hFC⟩ : ∃ b, FreqChain p.clip.frequencies b p.frequency_position := by
    rw [hfp]
    exact seek_freq_chain p.clip.frequencies hsf p.amplitude_position (max t 0)
  set ta : ℚ := (match (peek_amplitude_event p.clip.amplitudes
    p.amplitude_position).1 with
    | some e => e.time
    | Option.none => 0) with hta
  set tf : ℚ := (match (peek_frequency_event p.clip.frequencies
    p.frequency_position).1 with
    | some e => e.time
    | Option.none => 0) with htf
  have hAH : ∀ e pos', peek_amplitude_event p.clip.amplitudes
      p.amplitude_position = (some e, pos') → min ta tf ≤ e.time := by
    intro e pos' h
    have : ta = e.time := by rw [hta, h]
    rw [← this]
    exact min_le_left _ _
  have hFH : ampActive p.amplitude_position → ∀ e pos',
      peek_frequency_event p.clip.frequencies p.frequency_position =
        (some e, pos') → min ta tf ≤ e.time := by
    intro _ e pos' h
    have : tf = e.time := by rw [htf, h]
    rw [← this]
    exact min_le_right _ _
  obtain ⟨h1, h2, h3⟩ := collect_events_spec k p (min ta tf) aend fend
    hsa hsf hAC hFC hAH hFH
  exact ⟨eventsMono_chain _ _ h1, eventsNonOverlap_chain _ _ h2,
    eventsNonOverlap_chain _ _ h3⟩


theorem claim_C5_amended_witness :
    DataModel.validate c5_clip = Except.ok c5_clip ∧
    (0:ℚ) ≤ 0 ∧
    (List.Chain' (fun x y => x.time ≤ y.time)
      (collect_events ((HapticEventProvider.new c5_clip).seek 0) 3) ∧
    List.Chain' (fun x y => x.time + x.duration ≤ y.time)
      ((collect_events ((HapticEventProvider.new c5_clip).seek 0) 3).filter
        Event.isAmplitude) ∧
    List.Chain' (fun x y => x.time + x.duration ≤ y.time)
      ((collect_events ((HapticEventProvider.new c5_clip).seek 0) 3).filter
        Event.isFrequency)) := by
  have h1 : DataModel.validate c5_clip = Except.ok c5_clip := by
    norm_num [c5_clip, DataModel.validate, DataModel.amplitudes,
      DataModel.frequencies, v1_validate_amplitude_loop,
      v1_validate_frequency_loop, List.isEmpty]
  exact ⟨h1, le_refl 0, claim_C5_amended c5_clip 0 3 h1 (le_refl 0)⟩

/-- C5 is refuted as stated: on the valid clip `c5_clip`, after seeking to
`t = 0 ≥ 0`, the third emitted event is a frequency event starting at `0`
while the second (amplitude) event occupies `[0, 0.1]`, so
`time_2 + duration_2 = 0.1 > time_3 + ε`. -/
theorem claim_C5_counterexample :
    DataModel.validate c5_clip = Except.ok c5_clip ∧
    (0:ℚ) ≤ 0 ∧
    ¬ List.Chain' (fun x y => x.time ≤ y.time ∧
        x.time + x.duration ≤ y.time + eps32)
      (collect_events ((HapticEventProvider.new c5_clip).seek 0) 3) := by
  refine ⟨?_, le_refl 0, ?_⟩
  · norm_num [c5_clip, DataModel.validate, DataModel.amplitudes,
      DataModel.frequencies, v1_validate_amplitude_loop,
      v1_validate_frequency_loop, List.isEmpty]
  · have hcoll : collect_events ((HapticEventProvider.new c5_clip).seek 0) 3 =
        [Event.amplitude ⟨0, 0, 1/10, Option.none⟩,
         Event.amplitude ⟨0, 1/10, 1/5, Option.none⟩,
         Event.frequency ⟨0, 0, 19/20⟩] := by
      norm_num [c5_clip, HapticEventProvider.new, HapticEventProvider.seek,
        DataModel.amplitudes, DataModel.frequencies, amplitude_position_for_seek,
        frequency_position_for_seek, frequency_seek_find, binary_search_by,
        binary_search_go_step, binary_search_go_last, compare, compareOfLessAndEq,
        List.getD, List.get?, List.getLast?, List.getLast, MIN_BREAKPOINT_DISTANCE,
        Event.from_amplitude_breakpoints, Event.from_frequency_breakpoints,
        collect_events, HapticEventProvider.get_next_event,
        HapticEventProvider.peek_event, peek_amplitude_event, peek_in_clip,
        peek_after_last, peek_frequency_event, peek_frequency_in_clip,
        Event.apply_amplitude_multiplication,
        AmplitudeEvent.apply_amplitude_multiplication, Event.apply_frequency_shift,
        AmplitudeEvent.apply_frequency_shift, FrequencyEvent.apply_frequency_shift,
        Event.time]
    rw [hcoll]
    intro hchain
    rw [List.chain'_cons, List.chain'_cons] at hchain
    have hover := hchain.2.1.2
    norm_num [Event.time, Event.duration, eps32] at hover

end NiceVibrations
